import Mathlib

/-! bytevault: codec and pool lifecycle.

A shallow embedding of `src/public/script.js` (the key-generation and
reconstruction loops) and of `src/server.js` (configuration loading, pool
resolution, creation and retention), with the properties of the
specification stated and proved over it.
-/

namespace ByteVault

/-! ## Codec (`src/public/script.js`) -/

/-- An element of a `Uint8Array`. -/
abbrev Byte := Fin 256

/-- The loop of `%TypedArray%.prototype.indexOf` from index `k` on: the
index of the first element strictly equal to `byte`, or `-1`. -/
def indexOfFrom : List Byte → Byte → Nat → Int
  | [], _, _ => -1
  | x :: xs, byte, k => if x = byte then (k : Int) else indexOfFrom xs byte (k + 1)

/-- The call `serverDataBuffer.indexOf(byte)`. -/
def indexOf (serverDataBuffer : List Byte) (byte : Byte) : Int :=
  indexOfFrom serverDataBuffer byte 0

/-- The error thrown by the key-generation loop: the message names the byte
value and the index `i` at which it was met. -/
structure EncodeError where
  byte : Byte
  index : Nat
  deriving DecidableEq, Repr

/-- The error thrown by the reconstruction loop: the message names the
position and the index `i` at which it was met. -/
structure DecodeError where
  position : Int
  index : Nat
  deriving DecidableEq, Repr

/-- The key-generation loop of the upload handler (script.js lines 102-112),
from index `i` on, `keyFileData` being the positions pushed so far. -/
def encodeLoop (serverDataBuffer : List Byte) :
    List Byte → Nat → List Int → Except EncodeError (List Int)
  | [], _, keyFileData => .ok keyFileData
  | byte :: rest, i, keyFileData =>
    let position := indexOf serverDataBuffer byte
    if position = -1 then .error ⟨byte, i⟩
    else encodeLoop serverDataBuffer rest (i + 1) (keyFileData ++ [position])

/-- Key generation: `keyFileData = []` and the loop from `i = 0`. -/
def encode (serverDataBuffer originalFileBuffer : List Byte) :
    Except EncodeError (List Int) :=
  encodeLoop serverDataBuffer originalFileBuffer 0 []

/-- The element read `serverDataBuffer[position]`; an index outside the
buffer reads `undefined`, which a `Uint8Array` stores as `0`. -/
def readByte (serverDataBuffer : List Byte) (position : Int) : Byte :=
  if position < 0 then 0 else serverDataBuffer.getD position.toNat 0

/-- The reconstruction loop of the reconstruct handler (script.js lines
225-233), from index `i` on, over the buffer written so far. -/
def decodeLoop (serverDataBuffer : List Byte) :
    List Int → Nat → List Byte → Except DecodeError (List Byte)
  | [], _, reconstructedFileBuffer => .ok reconstructedFileBuffer
  | position :: rest, i, reconstructedFileBuffer =>
    if position < 0 ∨ position ≥ (serverDataBuffer.length : Int) then .error ⟨position, i⟩
    else decodeLoop serverDataBuffer rest (i + 1)
      (reconstructedFileBuffer.set i (readByte serverDataBuffer position))

/-- Reconstruction: a zero-filled `Uint8Array(keyFileData.length)` and the
loop from `i = 0`. -/
def decode (serverDataBuffer : List Byte) (keyFileData : List Int) :
    Except DecodeError (List Byte) :=
  decodeLoop serverDataBuffer keyFileData 0 (List.replicate keyFileData.length 0)

/-- A position the reconstruction loop rejects. -/
def outOfBounds (serverDataBuffer : List Byte) (position : Int) : Prop :=
  position < 0 ∨ position ≥ (serverDataBuffer.length : Int)

instance (P : List Byte) (p : Int) : Decidable (outOfBounds P p) := by
  unfold outOfBounds; infer_instance

/-! ## Strings as the server compares them -/

/-- The UTF-16 code units of one character: itself below `0x10000`, a
surrogate pair otherwise. -/
def charUnits (c : Char) : List Nat :=
  if c.toNat < 0x10000 then [c.toNat]
  else [0xD800 + (c.toNat - 0x10000) / 0x400, 0xDC00 + (c.toNat - 0x10000) % 0x400]

/-- The UTF-16 code units of a list of characters. -/
def unitsOf : List Char → List Nat
  | [] => []
  | c :: cs => charUnits c ++ unitsOf cs

/-- A string as a JavaScript string value: its sequence of code units. -/
def utf16 (s : String) : List Nat := unitsOf s.data

/-- The call `s.startsWith(searchString)`. -/
def startsWith (s searchString : String) : Bool :=
  (utf16 searchString).isPrefixOf (utf16 s)

/-- The call `s.endsWith(searchString)`. -/
def endsWith (s searchString : String) : Bool :=
  (utf16 searchString).isSuffixOf (utf16 s)

/-- Lexicographic "not after" on code-unit sequences, a proper prefix first:
the order of the JavaScript `<` on strings. -/
def unitsLe : List Nat → List Nat → Bool
  | [], _ => true
  | _ :: _, [] => false
  | a :: as, b :: bs => decide (a < b) || (decide (a = b) && unitsLe as bs)

/-- The order `Array.prototype.sort` uses when called without a comparator:
`a` is not placed after `b`. -/
def sortLe (a b : String) : Prop := unitsLe (utf16 a) (utf16 b) = true

instance sortLeDecidable : DecidableRel sortLe := fun a b =>
  inferInstanceAs (Decidable (unitsLe (utf16 a) (utf16 b) = true))

/-- The call `files.sort()`: a stable sort into ascending `sortLe` order. -/
def sort (files : List String) : List String := files.insertionSort sortLe

/-! ## Configuration loading (`src/server.js` lines 10-53) -/

/-- A value produced by `JSON.parse`. A number literal is kept as the
rational it denotes: its rounding to a double plays no part in loading. -/
inductive JsValue where
  | null
  | bool (b : Bool)
  | number (x : ℚ)
  | string (s : String)
  | array (items : List JsValue)
  | object (props : List (String × JsValue))

/-- The `config` object: its two properties. -/
structure Config where
  daysToKeep : JsValue
  serverDataMode : JsValue

/-- The constant `DEFAULT_CONFIG`. -/
def DEFAULT_CONFIG : Config := ⟨.number 7, .string "daily"⟩

/-- The test `v === s` against a string. -/
def strictEqString : JsValue → String → Bool
  | .string t, s => decide (t = s)
  | _, _ => false

/-- The test `typeof v === "number"`. -/
def isNumber : JsValue → Bool
  | .number _ => true
  | _ => false

/-- The own property `key` that the spread `...loadedConfig` copies, for a
key that is not an array index: only an object has one (`null`, booleans
and numbers spread to nothing, strings and arrays to index keys). -/
def ownProperty : JsValue → String → Option JsValue
  | .object props, key => props.lookup key
  | _, _ => none

/-- The merge `{ ...DEFAULT_CONFIG, ...loadedConfig }`, read at the two keys
the server uses. -/
def mergeWithDefaults (loadedConfig : JsValue) : Config :=
  { daysToKeep := (ownProperty loadedConfig "daysToKeep").getD DEFAULT_CONFIG.daysToKeep
    serverDataMode :=
      (ownProperty loadedConfig "serverDataMode").getD DEFAULT_CONFIG.serverDataMode }

mutual
/-- Whether `ToString(v)`, which a template literal applies to `v`, throws a
`TypeError`. A primitive never does. An object does exactly when it has an
own `toString` property: a parsed value is never callable, so the own
property hides `Object.prototype.toString`, and `valueOf`, own or
inherited, yields no primitive. An array is joined, which converts each
element other than `null`, so it throws exactly when an element does. -/
def toStringThrows : JsValue → Bool
  | .array items => anyToStringThrows items
  | .object props => (props.lookup "toString").isSome
  | _ => false
/-- Whether `ToString` throws on some element of an array. -/
def anyToStringThrows : List JsValue → Bool
  | [] => false
  | v :: vs => toStringThrows v || anyToStringThrows vs
end

/-- The first validation step (lines 20-26). The warning interpolates
`config.serverDataMode` before the default is assigned: `none` when that
conversion throws. -/
def validateServerDataMode (config : Config) : Option Config :=
  if !strictEqString config.serverDataMode "daily" &&
      !strictEqString config.serverDataMode "single" then
    if toStringThrows config.serverDataMode then none
    else some { config with serverDataMode := DEFAULT_CONFIG.serverDataMode }
  else some config

/-- The second validation step (lines 27-33); its warning interpolates only
the default. -/
def validateDaysToKeep (config : Config) : Config :=
  if strictEqString config.serverDataMode "daily" && !isNumber config.daysToKeep then
    { config with daysToKeep := DEFAULT_CONFIG.daysToKeep }
  else config

/-- The two validation steps (lines 20-33), in order; `none` when an
exception is thrown on the way. -/
def validate (config : Config) : Option Config :=
  (validateServerDataMode config).map validateDaysToKeep

/-- What the loader finds at `CONFIG_PATH`: no file, a file whose reading or
parsing throws, or a parsed value. -/
inductive ConfigFile where
  | absent
  | unreadable
  | parsed (loadedConfig : JsValue)

/-- Configuration loading (lines 13-53): defaults when the file is absent,
and when reading, parsing or validating throws and the `catch` block
resets the configuration; the validated merge otherwise. The closing
`console.log` is handed the object itself and converts nothing. -/
def loadConfig : ConfigFile → Config
  | .absent => DEFAULT_CONFIG
  | .unreadable => DEFAULT_CONFIG
  | .parsed loadedConfig => (validate (mergeWithDefaults loadedConfig)).getD DEFAULT_CONFIG

/-! ## Pool lifecycle (`src/server.js` lines 55-232) -/

/-- The constants fixed at startup. `SERVER_DATA_MODE` is `"daily"` or
`"single"` after validation; `DAYS_TO_KEEP` is taken integer-valued. -/
structure Server where
  DAYS_TO_KEEP : Int
  SERVER_DATA_MODE : String

/-- The constant `SINGLE_DATA_FILENAME`. -/
def SINGLE_DATA_FILENAME : String := "server_data.bin"

/-- The directory `SERVER_DATA_DIR`: its entries, each a file name with the
bytes stored under it, in the order the system lists them. -/
abbrev Dir := List (String × List Byte)

/-- The call `fs.existsSync` on a file of the directory. -/
def existsSync (dir : Dir) (name : String) : Bool := dir.any (fun e => decide (e.1 = name))

/-- The call `fs.readdirSync(SERVER_DATA_DIR)`. -/
def readdirSync (dir : Dir) : List String := dir.map (fun e => e.1)

/-- The bytes stored under a file name, if the file exists. -/
def readFile (dir : Dir) (name : String) : Option (List Byte) := dir.lookup name

/-- The call `fs.unlinkSync` on a file of the directory. -/
def unlinkSync (dir : Dir) (name : String) : Dir := dir.filter (fun e => decide (e.1 ≠ name))

/-- The call `fs.writeFileSync`: creates the file or replaces its bytes. -/
def writeFileSync (dir : Dir) (name : String) (buffer : List Byte) : Dir :=
  (name, buffer) :: unlinkSync dir name

/-- Which storage calls throw during a pass: `readdirSync`, `unlinkSync` on
a given file, `writeFileSync`. A call that throws leaves the directory as
it was. -/
structure Faults where
  readdir : Bool
  unlink : String → Bool
  write : Bool

/-- A pass without storage errors. -/
def noFaults : Faults := ⟨false, fun _ => false, false⟩

/-- The path `getServerDataFilePath(date)`, as the name joined to
`SERVER_DATA_DIR`; `today` is `new Date().toISOString().split("T")[0]` and
`date || today` takes `today` for a missing or empty `date`. -/
def getServerDataFilePath (srv : Server) (date : Option String) (today : String) : String :=
  if srv.SERVER_DATA_MODE = "single" then SINGLE_DATA_FILENAME
  else
    let targetDate :=
      match date with
      | some d => if d = "" then today else d
      | none => today
    "server_data_" ++ targetDate ++ ".bin"

/-- The constant `sizeInBytes`: 10 MB. -/
def sizeInBytes : Nat := 1024 * 1024 * 10

/-- The filled buffer: `random i` is the value of
`Math.floor(Math.random() * 256)` at the `i`-th iteration. -/
def randomBuffer (random : Nat → Byte) : List Byte := (List.range sizeInBytes).map random

/-- The function `createServerDataFileIfNeeded` (lines 105-133). -/
def createServerDataFileIfNeeded (srv : Server) (today : String) (random : Nat → Byte)
    (faults : Faults) (dir : Dir) : Dir :=
  let filePath := getServerDataFilePath srv none today
  if srv.SERVER_DATA_MODE = "single" ∧ existsSync dir filePath = true then dir
  else
    let buffer := randomBuffer random
    if faults.write then dir else writeFileSync dir filePath buffer

/-- The filter of line 161 on a directory entry. -/
def isDailyFile (file : String) : Bool :=
  startsWith file "server_data_" && endsWith file ".bin"

/-- Lines 155-171 on the listing `entries`: the files handed to the deletion
loop. `files.slice(0, n)` with `0 < n` is the first `n` files. -/
def filesToDelete (DAYS_TO_KEEP : Int) (entries : List String) : List String :=
  let effectiveDaysToKeep : Int := max 1 DAYS_TO_KEEP
  let files := sort (entries.filter isDailyFile)
  let filesToDeleteCount : Int := (files.length : Int) - effectiveDaysToKeep
  if filesToDeleteCount > 0 then files.take filesToDeleteCount.toNat else []

/-- The function `deleteOldestServerDataFiles` (lines 138-192): the two
early returns, then the deletion loop, which logs a failed `unlinkSync`
and goes on. -/
def deleteOldestServerDataFiles (srv : Server) (faults : Faults) (dir : Dir) : Dir :=
  if srv.SERVER_DATA_MODE ≠ "daily" then dir
  else if srv.DAYS_TO_KEEP = -1 then dir
  else if faults.readdir then dir
  else
    (filesToDelete srv.DAYS_TO_KEEP (readdirSync dir)).foldl
      (fun d fileToDelete => if faults.unlink fileToDelete then d else unlinkSync d fileToDelete)
      dir

/-- The function `manageServerDataFiles` (lines 199-208), run by the daily
schedule. The date `today` is taken the same at every `new Date()` of one
pass. -/
def manageServerDataFiles (srv : Server) (today : String) (random : Nat → Byte)
    (faults : Faults) (dir : Dir) : Dir :=
  if srv.SERVER_DATA_MODE = "daily" then
    createServerDataFileIfNeeded srv today random faults
      (deleteOldestServerDataFiles srv faults dir)
  else dir

/-- The startup block (lines 212-232): the required file is created when
missing, then daily mode runs one retention pass. -/
def initialization (srv : Server) (today : String) (random : Nat → Byte)
    (faults : Faults) (dir : Dir) : Dir :=
  let requiredFilePath := getServerDataFilePath srv none today
  let dir :=
    if !existsSync dir requiredFilePath then
      createServerDataFileIfNeeded srv today random faults dir
    else dir
  if srv.SERVER_DATA_MODE = "daily" then deleteOldestServerDataFiles srv faults dir else dir

/-- The daily files currently stored, as the retention pass sees them. -/
def storedDailyFiles (dir : Dir) : List String := (readdirSync dir).filter isDailyFile

/-- The file name `server_data_<date>.bin` of a daily pool. -/
def dailyFileName (date : String) : String := "server_data_" ++ date ++ ".bin"

/-- A directory holding the single daily pool of `2024-01-01`. -/
def oneDayOld : Dir := [("server_data_2024-01-01.bin", randomBuffer (fun _ => 0))]

/-- A directory holding the daily pool of `2024-06-01`, filled with zeros. -/
def todayStored : Dir := [("server_data_2024-06-01.bin", randomBuffer (fun _ => 0))]

/-- A directory holding the single-mode pool, filled with zeros. -/
def singleStored : Dir := [("server_data.bin", randomBuffer (fun _ => 0))]

/-- Strictly before, in the order of `files.sort()`. -/
def sortLt (a b : String) : Prop := ¬ sortLe b a

instance sortLtDecidable : DecidableRel sortLt := fun a b =>
  inferInstanceAs (Decidable (¬ sortLe b a))

/-- The ten daily files `2024-01-01` to `2024-01-10`, listed out of order. -/
def tenFiles : List String :=
  ["server_data_2024-01-04.bin", "server_data_2024-01-10.bin", "server_data_2024-01-01.bin",
   "server_data_2024-01-07.bin", "server_data_2024-01-02.bin", "server_data_2024-01-09.bin",
   "server_data_2024-01-03.bin", "server_data_2024-01-08.bin", "server_data_2024-01-06.bin",
   "server_data_2024-01-05.bin"]

/-- A directory holding the ten daily files, each with a few bytes. -/
def tenPools : Dir := tenFiles.map (fun f => (f, [1, 2, 3]))

/-! ## Paths and the download route (`src/server.js` lines 91-99, 269-285) -/

/-- The pieces of a string between its `/` separators. -/
def splitOnSlash : List Char → List (List Char)
  | [] => [[]]
  | c :: cs =>
    if c = '/' then [] :: splitOnSlash cs
    else
      match splitOnSlash cs with
      | [] => [[c]]
      | piece :: pieces => (c :: piece) :: pieces

/-- The segments of a POSIX path string. -/
def segments (s : String) : List String := (splitOnSlash s.data).map String.mk

/-- One step of POSIX path normalisation over the segments kept so far: an
empty segment and `.` are skipped, `..` drops the last kept segment (none
at the root), any other segment is kept. -/
def normalizeStep (kept : List String) (segment : String) : List String :=
  if segment = "" ∨ segment = "." then kept
  else if segment = ".." then kept.dropLast
  else kept ++ [segment]

/-- The call `path.join(dir, name)` on POSIX, for an absolute normalised
`dir` given by its segments and a `name` that does not end in `/`: the
segments of the resulting absolute path. -/
def pathJoin (dir : List String) (name : String) : List String :=
  (segments name).foldl normalizeStep dir

/-- The call `path.basename(p)` on a path given by its segments. -/
def basename (p : List String) : String := p.getLastD ""

/-- The absolute path `getServerDataFilePath(date)` returns:
`path.join(SERVER_DATA_DIR, fileName)`. -/
def resolvedFilePath (SERVER_DATA_DIR : List String) (srv : Server) (date : Option String)
    (today : String) : List String :=
  pathJoin SERVER_DATA_DIR (getServerDataFilePath srv date today)

/-- The route `GET /download/:date` (lines 269-285): the `filePath` looked up
and the `fileName` served for the parameter `requestedDate`. -/
def downloadTarget (SERVER_DATA_DIR : List String) (srv : Server) (requestedDate : String)
    (today : String) : List String × String :=
  if srv.SERVER_DATA_MODE = "single" then
    (resolvedFilePath SERVER_DATA_DIR srv none today, SINGLE_DATA_FILENAME)
  else
    let filePath := resolvedFilePath SERVER_DATA_DIR srv (some requestedDate) today
    (filePath, basename filePath)

/-! ## Calendar dates and their `YYYY-MM-DD` form -/

/-- A calendar date by its year, month and day numbers. -/
structure CalendarDate where
  year : Nat
  month : Nat
  day : Nat
  deriving DecidableEq, Repr

/-- A date that has a `YYYY-MM-DD` form: a year of at most four digits, a
month from 1 to 12, a day from 1 to 31. -/
def isCalendarDate (a : CalendarDate) : Prop :=
  a.year ≤ 9999 ∧ 1 ≤ a.month ∧ a.month ≤ 12 ∧ 1 ≤ a.day ∧ a.day ≤ 31

instance isCalendarDateDecidable (a : CalendarDate) : Decidable (isCalendarDate a) := by
  unfold isCalendarDate; infer_instance

/-- The character of the last decimal digit of `k`. -/
def digitChar (k : Nat) : Char := Char.ofNat (48 + k % 10)

/-- The form `YYYY-MM-DD` of a date, the date part of `toISOString()`: four
digits of year, two of month, two of day, zero-padded. -/
def isoDate (a : CalendarDate) : String :=
  String.mk [digitChar (a.year / 1000), digitChar (a.year / 100), digitChar (a.year / 10),
    digitChar a.year, '-', digitChar (a.month / 10), digitChar a.month, '-',
    digitChar (a.day / 10), digitChar a.day]

/-- Chronological order of dates: strictly earlier. -/
def chronLt (a b : CalendarDate) : Prop :=
  a.year < b.year ∨ (a.year = b.year ∧ (a.month < b.month ∨ (a.month = b.month ∧ a.day < b.day)))

/-- Chronological order of dates: not later. -/
def chronLe (a b : CalendarDate) : Prop :=
  a.year < b.year ∨ (a.year = b.year ∧ (a.month < b.month ∨ (a.month = b.month ∧ a.day ≤ b.day)))

instance chronLtDecidable : DecidableRel chronLt := fun a b => by
  unfold chronLt; infer_instance

instance chronLeDecidable : DecidableRel chronLe := fun a b => by
  unfold chronLe; infer_instance

/-- The daily file of a date. -/
def dateFile (a : CalendarDate) : String := dailyFileName (isoDate a)

/-! ## Lemmas on the codec: `indexOf` -/

theorem indexOfFrom_not_mem (P : List Byte) (b : Byte) (k : Nat) (h : b ∉ P) :
    indexOfFrom P b k = -1 := by
  induction P generalizing k with
  | nil => rfl
  | cons x xs ih =>
    have hx : x ≠ b := fun e => h (e ▸ List.mem_cons_self _ _)
    have hxs : b ∉ xs := fun e => h (List.mem_cons_of_mem _ e)
    simp [indexOfFrom, hx, ih (k + 1) hxs]

theorem indexOfFrom_mem (P : List Byte) (b : Byte) (k : Nat) (h : b ∈ P) :
    ∃ p : Nat, indexOfFrom P b k = ((k + p : Nat) : Int) ∧ P[p]? = some b ∧
      ∀ q, q < p → P[q]? ≠ some b := by
  induction P generalizing k with
  | nil => simp at h
  | cons x xs ih =>
    by_cases hx : x = b
    · refine ⟨0, by simp [indexOfFrom, hx], by simp [hx], ?_⟩
      intro q hq; omega
    · have hxs : b ∈ xs := by
        rcases List.mem_cons.1 h with e | e
        · exact absurd e.symm hx
        · exact e
      obtain ⟨p, hp, hget, hmin⟩ := ih (k + 1) hxs
      refine ⟨p + 1, ?_, by simpa using hget, ?_⟩
      · simp only [indexOfFrom, hx, if_false, hp]
        push_cast; ring
      · intro q hq
        cases q with
        | zero => simpa using hx
        | succ q => simpa using hmin q (by omega)

theorem indexOf_eq_neg_one_iff (P : List Byte) (b : Byte) :
    indexOf P b = -1 ↔ b ∉ P := by
  constructor
  · intro h hb
    obtain ⟨p, hp, _, _⟩ := indexOfFrom_mem P b 0 hb
    unfold indexOf at h
    rw [hp] at h
    omega
  · exact indexOfFrom_not_mem P b 0

/-- When the byte occurs, `indexOf` is the lowest index holding it. -/
theorem indexOf_first (P : List Byte) (b : Byte) (h : b ∈ P) :
    ∃ p : Nat, indexOf P b = (p : Int) ∧ p < P.length ∧ P[p]? = some b ∧
      ∀ q, q < p → P[q]? ≠ some b := by
  obtain ⟨p, hp, hget, hmin⟩ := indexOfFrom_mem P b 0 h
  refine ⟨p, by simpa [indexOf] using hp, ?_, hget, hmin⟩
  by_contra hlt
  rw [List.getElem?_eq_none (by omega)] at hget
  cases hget

/-! ### Lemmas on the key-generation loop -/

theorem encodeLoop_ok_of_mem (P : List Byte) (D : List Byte) (i : Nat) (key : List Int)
    (h : ∀ b ∈ D, b ∈ P) :
    encodeLoop P D i key = .ok (key ++ D.map (indexOf P)) := by
  induction D generalizing i key with
  | nil => simp [encodeLoop]
  | cons b rest ih =>
    have hb : indexOf P b ≠ -1 := fun e =>
      (indexOf_eq_neg_one_iff P b).1 e (h b (List.mem_cons_self _ _))
    have hrest : ∀ c ∈ rest, c ∈ P := fun c hc => h c (List.mem_cons_of_mem _ hc)
    simp [encodeLoop, hb, ih (i + 1) (key ++ [indexOf P b]) hrest]

theorem encodeLoop_error (P : List Byte) (D : List Byte) (i : Nat) (key : List Int)
    (e : EncodeError) (h : encodeLoop P D i key = .error e) :
    ∃ j, j < D.length ∧ e.index = i + j ∧ D[j]? = some e.byte ∧ e.byte ∉ P ∧
      ∀ k, k < j → ∀ b, D[k]? = some b → b ∈ P := by
  induction D generalizing i key with
  | nil => simp [encodeLoop] at h
  | cons b rest ih =>
    by_cases hb : indexOf P b = -1
    · simp only [encodeLoop, hb, if_true] at h
      cases h
      refine ⟨0, by simp, by simp, by simp, (indexOf_eq_neg_one_iff P b).1 hb, ?_⟩
      intro k hk; omega
    · simp only [encodeLoop, hb, if_false] at h
      obtain ⟨j, hj, hidx, hget, hmem, hmin⟩ := ih (i + 1) _ h
      refine ⟨j + 1, by simpa using hj, by omega, by simpa using hget, hmem, ?_⟩
      intro k hk c hc
      cases k with
      | zero =>
        simp at hc
        subst hc
        by_contra hn
        exact hb ((indexOf_eq_neg_one_iff P b).2 hn)
      | succ k => exact hmin k (by omega) c (by simpa using hc)

theorem encodeLoop_ok (P : List Byte) (D : List Byte) (i : Nat) (key out : List Int)
    (h : encodeLoop P D i key = .ok out) : ∀ b ∈ D, b ∈ P := by
  induction D generalizing i key with
  | nil => simp
  | cons b rest ih =>
    by_cases hb : indexOf P b = -1
    · simp [encodeLoop, hb] at h
    · simp only [encodeLoop, hb, if_false] at h
      intro c hc
      rcases List.mem_cons.1 hc with e | e
      · subst e
        by_contra hn
        exact hb ((indexOf_eq_neg_one_iff P c).2 hn)
      · exact ih (i + 1) _ h c e

/-! ### Lemmas on the reconstruction loop -/

theorem readByte_natCast (P : List Byte) (p : Nat) (h : p < P.length) :
    P[p]? = some (readByte P (p : Int)) := by
  have hn : ¬ ((p : Int) < 0) := by omega
  simp [readByte, hn, List.getD, List.getElem?_eq_getElem h]

theorem decodeLoop_ok_of_inBounds (P : List Byte) (ps : List Int) (i : Nat) (buf : List Byte)
    (hlen : buf.length = i + ps.length) (h : ∀ p ∈ ps, ¬ outOfBounds P p) :
    decodeLoop P ps i buf = .ok (buf.take i ++ ps.map (readByte P)) := by
  induction ps generalizing i buf with
  | nil =>
    have : buf.take i = buf := List.take_of_length_le (by simp at hlen; omega)
    simp [decodeLoop, this]
  | cons p rest ih =>
    have hp : ¬ (p < 0 ∨ p ≥ (P.length : Int)) := h p (List.mem_cons_self _ _)
    have hrest : ∀ q ∈ rest, ¬ outOfBounds P q := fun q hq => h q (List.mem_cons_of_mem _ hq)
    have hi : i < buf.length := by simp at hlen; omega
    simp only [decodeLoop, hp, if_false]
    rw [ih (i + 1) _ (by simp at hlen ⊢; omega) hrest]
    congr 1
    rw [List.take_succ, List.set_take, List.set_eq_of_length_le (by simp),
      List.getElem?_set_self hi]
    simp

theorem decodeLoop_error (P : List Byte) (ps : List Int) (i : Nat) (buf : List Byte)
    (e : DecodeError) (h : decodeLoop P ps i buf = .error e) :
    ∃ j, j < ps.length ∧ e.index = i + j ∧ ps[j]? = some e.position ∧
      outOfBounds P e.position ∧ ∀ k, k < j → ∀ p, ps[k]? = some p → ¬ outOfBounds P p := by
  induction ps generalizing i buf with
  | nil => simp [decodeLoop] at h
  | cons p rest ih =>
    by_cases hp : p < 0 ∨ p ≥ (P.length : Int)
    · simp only [decodeLoop, hp, if_true] at h
      cases h
      refine ⟨0, by simp, by simp, by simp, hp, ?_⟩
      intro k hk; omega
    · simp only [decodeLoop, hp, if_false] at h
      obtain ⟨j, hj, hidx, hget, hbad, hmin⟩ := ih (i + 1) _ h
      refine ⟨j + 1, by simpa using hj, by omega, by simpa using hget, hbad, ?_⟩
      intro k hk q hq
      cases k with
      | zero =>
        simp at hq
        subst hq
        exact hp
      | succ k => exact hmin k (by omega) q (by simpa using hq)

theorem decodeLoop_ok (P : List Byte) (ps : List Int) (i : Nat) (buf out : List Byte)
    (h : decodeLoop P ps i buf = .ok out) : ∀ p ∈ ps, ¬ outOfBounds P p := by
  induction ps generalizing i buf with
  | nil => simp
  | cons p rest ih =>
    by_cases hp : p < 0 ∨ p ≥ (P.length : Int)
    · simp [decodeLoop, hp] at h
    · simp only [decodeLoop, hp, if_false] at h
      intro q hq
      rcases List.mem_cons.1 hq with e | e
      · subst e
        exact hp
      · exact ih (i + 1) _ h q e

theorem decode_ok_of_inBounds (P : List Byte) (ps : List Int)
    (h : ∀ p ∈ ps, ¬ outOfBounds P p) : decode P ps = .ok (ps.map (readByte P)) := by
  unfold decode
  rw [decodeLoop_ok_of_inBounds P ps 0 _ (by simp) h]
  simp

theorem encode_ok_of_mem (P D : List Byte) (h : ∀ b ∈ D, b ∈ P) :
    encode P D = .ok (D.map (indexOf P)) := by
  unfold encode
  rw [encodeLoop_ok_of_mem P D 0 [] h]
  simp

/-! ### The codec claims -/

/-- C1. Round trip: when the pool holds every byte value 0..255, key
generation succeeds on every data sequence and reconstruction from the
positions it produced succeeds and returns the data. -/
theorem C1_round_trip (P D : List Byte) (hP : ∀ b : Byte, b ∈ P) :
    ∃ positions, encode P D = .ok positions ∧ decode P positions = .ok D := by
  have hD : ∀ b ∈ D, b ∈ P := fun b _ => hP b
  refine ⟨D.map (indexOf P), encode_ok_of_mem P D hD, ?_⟩
  have hin : ∀ p ∈ D.map (indexOf P), ¬ outOfBounds P p := by
    intro p hp
    obtain ⟨b, hb, rfl⟩ := List.mem_map.1 hp
    obtain ⟨q, hq, hlt, _, _⟩ := indexOf_first P b (hD b hb)
    rw [hq]
    unfold outOfBounds
    omega
  rw [decode_ok_of_inBounds P _ hin, List.map_map]
  congr 1
  conv_rhs => rw [← List.map_id D]
  apply List.map_congr_left
  intro b hb
  obtain ⟨q, hq, hlt, hget, _⟩ := indexOf_first P b (hD b hb)
  have := readByte_natCast P q hlt
  rw [hget] at this
  simp only [Function.comp, hq, id]
  exact (Option.some.inj this).symm

/-- The pool `0, 1, ..., 255` holds every byte value; the round trip on it. -/
theorem C1_round_trip_witness :
    (∀ b : Byte, b ∈ List.finRange 256) ∧
      ∃ positions, encode (List.finRange 256) [72, 105, 0, 255] = .ok positions ∧
        decode (List.finRange 256) positions = .ok [72, 105, 0, 255] :=
  ⟨List.mem_finRange, C1_round_trip (List.finRange 256) [72, 105, 0, 255] List.mem_finRange⟩

/-- C2. Key generation picks the first occurrence: on success the output has
the length of the data and its `i`-th entry is the lowest index of the pool
holding the `i`-th data byte. -/
theorem C2_encode_first_occurrence (P D : List Byte) (positions : List Int)
    (h : encode P D = .ok positions) :
    positions.length = D.length ∧
      ∀ (i : Nat) (b : Byte), D[i]? = some b →
        ∃ p : Nat, positions[i]? = some (p : Int) ∧ p < P.length ∧ P[p]? = some b ∧
          ∀ q, q < p → P[q]? ≠ some b := by
  have hD : ∀ b ∈ D, b ∈ P := encodeLoop_ok P D 0 [] positions h
  rw [encode_ok_of_mem P D hD] at h
  cases h
  refine ⟨by simp, ?_⟩
  intro i b hb
  obtain ⟨p, hp, hlt, hget, hmin⟩ := indexOf_first P b (hD b (List.getElem?_mem hb))
  exact ⟨p, by simp [List.getElem?_map, hb, hp], hlt, hget, hmin⟩

/-- The scenario of the specification: pool `[5, 9, 2, 9, 5]`, data `[9, 5]`,
positions `[1, 0]`. -/
theorem C2_encode_first_occurrence_witness :
    encode [5, 9, 2, 9, 5] [9, 5] = .ok [1, 0] ∧
      ([1, 0] : List Int).length = ([9, 5] : List Byte).length ∧
      ∀ (i : Nat) (b : Byte), ([9, 5] : List Byte)[i]? = some b →
        ∃ p : Nat, ([1, 0] : List Int)[i]? = some (p : Int) ∧
          p < ([5, 9, 2, 9, 5] : List Byte).length ∧
          ([5, 9, 2, 9, 5] : List Byte)[p]? = some b ∧
          ∀ q, q < p → ([5, 9, 2, 9, 5] : List Byte)[q]? ≠ some b :=
  ⟨rfl, C2_encode_first_occurrence [5, 9, 2, 9, 5] [9, 5] [1, 0] rfl⟩

/-- C3. Reconstruction bounds: decode fails exactly when some position is
negative or not below the pool length; the error then carries the first
offending position and its index, no output is returned, and on a pool of
length 5 the positions `[5]` fail with position 5 at index 0. -/
theorem C3_decode_bounds (P : List Byte) (positions : List Int) :
    ((∃ e, decode P positions = .error e) ↔
        ∃ p ∈ positions, p < 0 ∨ p ≥ (P.length : Int)) ∧
      (∀ e, decode P positions = .error e →
        positions[e.index]? = some e.position ∧
        (e.position < 0 ∨ e.position ≥ (P.length : Int)) ∧
        (∀ (k : Nat) (p : Int), k < e.index → positions[k]? = some p →
          ¬ (p < 0 ∨ p ≥ (P.length : Int))) ∧
        ∀ out, decode P positions ≠ .ok out) ∧
      decode [5, 9, 2, 9, 5] [5] = .error ⟨5, 0⟩ := by
  refine ⟨⟨?_, ?_⟩, ?_, rfl⟩
  · rintro ⟨e, he⟩
    obtain ⟨j, _, _, hget, hbad, _⟩ := decodeLoop_error P positions 0 _ e he
    exact ⟨e.position, List.getElem?_mem hget, hbad⟩
  · rintro ⟨p, hp, hbad⟩
    cases hd : decode P positions with
    | error e => exact ⟨e, rfl⟩
    | ok out => exact absurd hbad (decodeLoop_ok P positions 0 _ out hd p hp)
  · intro e he
    obtain ⟨j, _, hidx, hget, hbad, hmin⟩ := decodeLoop_error P positions 0 _ e he
    have hj : e.index = j := by omega
    refine ⟨by rw [hj]; exact hget, hbad, ?_, ?_⟩
    · intro k p hk hp
      exact hmin k (by omega) p hp
    · intro out hout
      rw [he] at hout
      cases hout

/-- C4. Key generation is all-or-nothing: encode fails exactly when some data
byte does not occur in the pool; the error then names the first absent byte
and its index, and no positions are returned. -/
theorem C4_encode_all_or_nothing (P D : List Byte) :
    ((∃ e, encode P D = .error e) ↔ ∃ b ∈ D, b ∉ P) ∧
      ∀ e, encode P D = .error e →
        D[e.index]? = some e.byte ∧ e.byte ∉ P ∧
        (∀ (k : Nat) (b : Byte), k < e.index → D[k]? = some b → b ∈ P) ∧
        ∀ positions, encode P D ≠ .ok positions := by
  refine ⟨⟨?_, ?_⟩, ?_⟩
  · rintro ⟨e, he⟩
    obtain ⟨j, _, _, hget, hmem, _⟩ := encodeLoop_error P D 0 [] e he
    exact ⟨e.byte, List.getElem?_mem hget, hmem⟩
  · rintro ⟨b, hb, hnot⟩
    cases hd : encode P D with
    | error e => exact ⟨e, rfl⟩
    | ok out => exact absurd (encodeLoop_ok P D 0 [] out hd b hb) hnot
  · intro e he
    obtain ⟨j, _, hidx, hget, hmem, hmin⟩ := encodeLoop_error P D 0 [] e he
    have hj : e.index = j := by omega
    refine ⟨by rw [hj]; exact hget, hmem, ?_, ?_⟩
    · intro k b hk hb
      exact hmin k (by omega) b hb
    · intro out hout
      rw [he] at hout
      cases hout

/-- C5. Reconstruction result: when every position lies in `[0, length P)`,
decode succeeds, the output has as many bytes as there are positions, and
its `i`-th byte is the pool byte at the `i`-th position. -/
theorem C5_decode_result (P : List Byte) (positions : List Int)
    (h : ∀ p ∈ positions, 0 ≤ p ∧ p < (P.length : Int)) :
    ∃ out, decode P positions = .ok out ∧ out.length = positions.length ∧
      ∀ (i : Nat) (p : Int), positions[i]? = some p →
        ∃ b, P[p.toNat]? = some b ∧ out[i]? = some b := by
  have hin : ∀ p ∈ positions, ¬ outOfBounds P p := by
    intro p hp
    have := h p hp
    unfold outOfBounds
    omega
  refine ⟨positions.map (readByte P), decode_ok_of_inBounds P positions hin, by simp, ?_⟩
  intro i p hp
  obtain ⟨h0, hlt⟩ := h p (List.getElem?_mem hp)
  have hnat : ((p.toNat : Nat) : Int) = p := Int.toNat_of_nonneg h0
  have hget := readByte_natCast P p.toNat (by omega)
  rw [hnat] at hget
  exact ⟨readByte P p, hget, by simp [List.getElem?_map, hp]⟩

/-- The positions `[1, 0]` on the pool `[5, 9, 2, 9, 5]` give `[9, 5]`. -/
theorem C5_decode_result_witness :
    decode [5, 9, 2, 9, 5] [1, 0] = .ok [9, 5] ∧
      ∃ out, decode [5, 9, 2, 9, 5] [1, 0] = .ok out ∧
        out.length = ([1, 0] : List Int).length ∧
        ∀ (i : Nat) (p : Int), ([1, 0] : List Int)[i]? = some p →
          ∃ b, ([5, 9, 2, 9, 5] : List Byte)[p.toNat]? = some b ∧ out[i]? = some b :=
  ⟨rfl, C5_decode_result [5, 9, 2, 9, 5] [1, 0] (by decide)⟩

/-! ## Lemmas on strings and their order -/

theorem char_toNat_range (c : Char) :
    c.toNat < 0xD800 ∨ (0xDFFF < c.toNat ∧ c.toNat < 0x110000) := by
  have := c.valid
  simpa [UInt32.isValidChar, Nat.isValidChar, Char.toNat] using this

theorem char_toNat_injective (c d : Char) (h : c.toNat = d.toNat) : c = d := by
  apply Char.ext
  apply UInt32.ext
  exact h

theorem unitsOf_append (xs ys : List Char) : unitsOf (xs ++ ys) = unitsOf xs ++ unitsOf ys := by
  induction xs with
  | nil => rfl
  | cons c cs ih => simp [unitsOf, ih]

theorem utf16_append (s t : String) : utf16 (s ++ t) = utf16 s ++ utf16 t := by
  simp [utf16, unitsOf_append]

theorem unitsOf_injective (xs ys : List Char) (h : unitsOf xs = unitsOf ys) : xs = ys := by
  induction xs generalizing ys with
  | nil =>
    cases ys with
    | nil => rfl
    | cons d ds =>
      exfalso
      simp only [unitsOf, charUnits] at h
      split at h <;> simp at h
  | cons c cs ih =>
    cases ys with
    | nil =>
      exfalso
      simp only [unitsOf, charUnits] at h
      split at h <;> simp at h
    | cons d ds =>
      have hc := char_toNat_range c
      have hd := char_toNat_range d
      simp only [unitsOf, charUnits] at h
      by_cases h1 : c.toNat < 0x10000 <;> by_cases h2 : d.toNat < 0x10000
      · simp only [h1, h2, if_true, List.cons_append, List.nil_append, List.cons.injEq] at h
        rw [char_toNat_injective c d h.1, ih ds h.2]
      · exfalso
        simp only [h1, h2, if_true, if_false, List.cons_append, List.nil_append,
          List.cons.injEq] at h
        omega
      · exfalso
        simp only [h1, h2, if_true, if_false, List.cons_append, List.nil_append,
          List.cons.injEq] at h
        omega
      · simp only [h1, h2, if_false, List.cons_append, List.nil_append, List.cons.injEq] at h
        obtain ⟨e1, e2, e3⟩ := h
        have : c.toNat = d.toNat := by omega
        rw [char_toNat_injective c d this, ih ds e3]

theorem utf16_injective (s t : String) (h : utf16 s = utf16 t) : s = t :=
  String.ext (unitsOf_injective s.data t.data h)

theorem unitsLe_total (a b : List Nat) : unitsLe a b = true ∨ unitsLe b a = true := by
  induction a generalizing b with
  | nil => left; rfl
  | cons x xs ih =>
    cases b with
    | nil => right; rfl
    | cons y ys =>
      simp only [unitsLe, Bool.or_eq_true, Bool.and_eq_true, decide_eq_true_eq]
      rcases Nat.lt_trichotomy x y with hlt | heq | hgt
      · exact Or.inl (Or.inl hlt)
      · rcases ih ys with h | h
        · exact Or.inl (Or.inr ⟨heq, h⟩)
        · exact Or.inr (Or.inr ⟨heq.symm, h⟩)
      · exact Or.inr (Or.inl hgt)

theorem unitsLe_trans (a b c : List Nat) (hab : unitsLe a b = true) (hbc : unitsLe b c = true) :
    unitsLe a c = true := by
  induction a generalizing b c with
  | nil => rfl
  | cons x xs ih =>
    cases b with
    | nil => simp [unitsLe] at hab
    | cons y ys =>
      cases c with
      | nil => simp [unitsLe] at hbc
      | cons z zs =>
        simp only [unitsLe, Bool.or_eq_true, Bool.and_eq_true, decide_eq_true_eq] at hab hbc ⊢
        rcases hab with h1 | ⟨h1, h1'⟩ <;> rcases hbc with h2 | ⟨h2, h2'⟩
        · exact Or.inl (by omega)
        · exact Or.inl (by omega)
        · exact Or.inl (by omega)
        · exact Or.inr ⟨by omega, ih ys zs h1' h2'⟩

theorem unitsLe_antisymm (a b : List Nat) (hab : unitsLe a b = true) (hba : unitsLe b a = true) :
    a = b := by
  induction a generalizing b with
  | nil =>
    cases b with
    | nil => rfl
    | cons y ys => simp [unitsLe] at hba
  | cons x xs ih =>
    cases b with
    | nil => simp [unitsLe] at hab
    | cons y ys =>
      simp only [unitsLe, Bool.or_eq_true, Bool.and_eq_true, decide_eq_true_eq] at hab hba
      rcases hab with h1 | ⟨h1, h1'⟩ <;> rcases hba with h2 | ⟨h2, h2'⟩
      · omega
      · omega
      · omega
      · rw [h1, ih ys h1' h2']

theorem sortLe_total (a b : String) : sortLe a b ∨ sortLe b a :=
  unitsLe_total (utf16 a) (utf16 b)

theorem sortLe_trans (a b c : String) (hab : sortLe a b) (hbc : sortLe b c) : sortLe a c :=
  unitsLe_trans (utf16 a) (utf16 b) (utf16 c) hab hbc

theorem sortLe_antisymm (a b : String) (hab : sortLe a b) (hba : sortLe b a) : a = b :=
  utf16_injective a b (unitsLe_antisymm (utf16 a) (utf16 b) hab hba)

theorem sort_sorted (files : List String) : (sort files).Pairwise sortLe := by
  haveI : IsTotal String sortLe := ⟨sortLe_total⟩
  haveI : IsTrans String sortLe := ⟨sortLe_trans⟩
  exact List.sorted_insertionSort sortLe files

theorem sort_perm (files : List String) : (sort files).Perm files :=
  List.perm_insertionSort sortLe files

/-- The name of a daily pool passes the filter of the retention pass. -/
theorem isDailyFile_dailyFileName (date : String) : isDailyFile (dailyFileName date) = true := by
  simp only [isDailyFile, dailyFileName, startsWith, endsWith, Bool.and_eq_true,
    List.isPrefixOf_iff_prefix, List.isSuffixOf_iff_suffix, utf16_append]
  exact ⟨⟨utf16 date ++ utf16 ".bin", by simp⟩, ⟨utf16 "server_data_" ++ utf16 date, by simp⟩⟩

/-! ## Lemmas on the directory and the retention pass -/

theorem filesToDelete_eq_take (n : Int) (entries : List String) :
    filesToDelete n entries =
      (sort (entries.filter isDailyFile)).take
        (((entries.filter isDailyFile).length : Int) - max 1 n).toNat := by
  have hlen : (sort (entries.filter isDailyFile)).length = (entries.filter isDailyFile).length :=
    (sort_perm _).length_eq
  unfold filesToDelete
  simp only [hlen]
  split
  · rfl
  · next h =>
    have : (((entries.filter isDailyFile).length : Int) - max 1 n).toNat = 0 := by omega
    rw [this, List.take_zero]

theorem filesToDelete_length (n : Int) (entries : List String) :
    (filesToDelete n entries).length =
      (((entries.filter isDailyFile).length : Int) - max 1 n).toNat := by
  rw [filesToDelete_eq_take, List.length_take, (sort_perm _).length_eq]
  have : (1 : Int) ≤ max 1 n := le_max_left 1 n
  omega

theorem filesToDelete_subset (n : Int) (entries : List String) (f : String)
    (h : f ∈ filesToDelete n entries) : f ∈ entries.filter isDailyFile := by
  rw [filesToDelete_eq_take] at h
  exact (sort_perm _).subset (List.mem_of_mem_take h)

/-- A stored daily file that is not selected sorts after every selected one. -/
theorem filesToDelete_le (n : Int) (entries : List String) (d k : String)
    (hd : d ∈ filesToDelete n entries) (hk : k ∈ entries.filter isDailyFile)
    (hnot : k ∉ filesToDelete n entries) : sortLe d k := by
  rw [filesToDelete_eq_take] at hd hnot
  generalize (((entries.filter isDailyFile).length : Int) - max 1 n).toNat = m at hd hnot
  have hsorted := sort_sorted (entries.filter isDailyFile)
  have hk' : k ∈ sort (entries.filter isDailyFile) := (sort_perm _).mem_iff.2 hk
  rw [← List.take_append_drop m (sort (entries.filter isDailyFile))] at hsorted hk'
  rcases List.mem_append.1 hk' with h | h
  · exact absurd h hnot
  · exact (List.pairwise_append.1 hsorted).2.2 d hd k h

theorem filesToDelete_lt (n : Int) (entries : List String) (d k : String)
    (hd : d ∈ filesToDelete n entries) (hk : k ∈ entries.filter isDailyFile)
    (hnot : k ∉ filesToDelete n entries) : sortLt d k := by
  intro hkd
  have := sortLe_antisymm d k (filesToDelete_le n entries d k hd hk hnot) hkd
  exact hnot (this ▸ hd)

theorem filesToDelete_nodup (n : Int) (entries : List String) (h : entries.Nodup) :
    (filesToDelete n entries).Nodup := by
  rw [filesToDelete_eq_take]
  exact (List.take_sublist _ _).nodup ((sort_perm _).nodup_iff.2 (h.filter _))

/-- The stored daily files that survive a selection number at most
`effectiveDaysToKeep`. -/
theorem survivors_length (n : Int) (entries : List String) :
    (((entries.filter isDailyFile).filter (fun f => decide (f ∉ filesToDelete n entries))).length
      : Int) ≤ max 1 n := by
  have hperm := sort_perm (entries.filter isDailyFile)
  rw [← (hperm.filter (fun f => decide (f ∉ filesToDelete n entries))).length_eq]
  have hlen := hperm.length_eq
  rw [filesToDelete_eq_take]
  generalize hm : (((entries.filter isDailyFile).length : Int) - max 1 n).toNat = m
  generalize sort (entries.filter isDailyFile) = files at *
  have h1 : (files.filter (fun f => decide (f ∉ files.take m))).length ≤ (files.drop m).length := by
    conv_lhs => rw [← List.take_append_drop m files]
    rw [List.filter_append]
    have : (List.take m files).filter
        (fun f => decide (f ∉ List.take m (List.take m files ++ List.drop m files))) = [] := by
      rw [List.take_append_drop]
      simp [List.filter_eq_nil_iff]
    rw [this, List.nil_append]
    exact List.length_filter_le _ _
  rw [List.length_drop] at h1
  omega

theorem readdirSync_filter (q : String → Bool) (dir : Dir) :
    readdirSync (dir.filter (fun e => q e.1)) = (readdirSync dir).filter q := by
  induction dir with
  | nil => rfl
  | cons e es ih =>
    simp only [readdirSync, List.filter_cons, List.map_cons] at ih ⊢
    split <;> simp [ih]

theorem readFile_filter (q : String → Bool) (dir : Dir) (f : String) :
    readFile (dir.filter (fun e => q e.1)) f = if q f = true then readFile dir f else none := by
  induction dir with
  | nil => simp [readFile]
  | cons e es ih =>
    obtain ⟨name, bytes⟩ := e
    simp only [readFile] at ih ⊢
    by_cases hname : f = name
    · subst hname
      by_cases hq : q f = true
      · simp [List.filter_cons, hq, List.lookup_cons]
      · simp [List.filter_cons, hq, ih]
    · have hbeq : (f == name) = false := by simpa using hname
      by_cases hq : q name = true
      · simp [List.filter_cons, hq, List.lookup_cons, hbeq, ih]
      · simp [List.filter_cons, hq, List.lookup_cons, hbeq, ih]

theorem readFile_writeFileSync_self (dir : Dir) (name : String) (buffer : List Byte) :
    readFile (writeFileSync dir name buffer) name = some buffer := by
  simp [readFile, writeFileSync, List.lookup_cons]

theorem readdirSync_writeFileSync (dir : Dir) (name : String) (buffer : List Byte) :
    readdirSync (writeFileSync dir name buffer) =
      name :: (readdirSync dir).filter (fun f => decide (f ≠ name)) := by
  simp only [writeFileSync, unlinkSync]
  rw [show readdirSync ((name, buffer) :: dir.filter (fun e => decide (e.1 ≠ name))) =
    name :: readdirSync (dir.filter (fun e => decide (e.1 ≠ name))) from rfl,
    readdirSync_filter (fun f => decide (f ≠ name))]

/-- The deletion loop removes the selected files whose `unlinkSync` succeeds. -/
theorem deletionLoop_eq (faults : Faults) (l : List String) (dir : Dir) :
    l.foldl (fun d fileToDelete =>
        if faults.unlink fileToDelete then d else unlinkSync d fileToDelete) dir =
      dir.filter (fun e => decide (¬ (e.1 ∈ l ∧ faults.unlink e.1 = false))) := by
  induction l generalizing dir with
  | nil => simp
  | cons f fs ih =>
    rw [List.foldl_cons, ih]
    by_cases hf : faults.unlink f = true
    · simp only [hf, if_true]
      apply List.filter_congr
      intro e _
      by_cases he : e.1 = f
      · simp [he, hf]
      · simp [he]
    · have hf' : faults.unlink f = false := by simpa using hf
      simp only [hf', Bool.false_eq_true, if_false, unlinkSync, List.filter_filter]
      apply List.filter_congr
      intro e _
      by_cases he : e.1 = f
      · simp [he, hf']
      · simp [he]

/-- Whatever the mode, the setting and the storage errors, the retention
pass only removes entries: its result is the directory filtered by name. -/
theorem deleteOldest_eq_filter (srv : Server) (faults : Faults) (dir : Dir) :
    ∃ q : String → Bool, deleteOldestServerDataFiles srv faults dir = dir.filter (fun e => q e.1) := by
  unfold deleteOldestServerDataFiles
  split
  · exact ⟨fun _ => true, by simp⟩
  · split
    · exact ⟨fun _ => true, by simp⟩
    · split
      · exact ⟨fun _ => true, by simp⟩
      · rw [deletionLoop_eq]
        exact ⟨fun f => decide (¬ (f ∈ filesToDelete srv.DAYS_TO_KEEP (readdirSync dir) ∧
          faults.unlink f = false)), rfl⟩

/-- In daily mode, with a setting other than `-1` and no storage error, the
retention pass removes exactly the selected files. -/
theorem deleteOldest_daily (srv : Server) (dir : Dir)
    (hmode : srv.SERVER_DATA_MODE = "daily") (hdays : srv.DAYS_TO_KEEP ≠ -1) :
    deleteOldestServerDataFiles srv noFaults dir =
      dir.filter (fun e => decide (e.1 ∉ filesToDelete srv.DAYS_TO_KEEP (readdirSync dir))) := by
  unfold deleteOldestServerDataFiles
  rw [deletionLoop_eq]
  simp [hmode, hdays, noFaults]

theorem randomBuffer_head (random : Nat → Byte) : (randomBuffer random)[0]? = some (random 0) := by
  simp [randomBuffer, sizeInBytes, List.getElem?_map, List.getElem?_range]

theorem getServerDataFilePath_daily (srv : Server) (today : String)
    (hmode : srv.SERVER_DATA_MODE = "daily") :
    getServerDataFilePath srv none today = dailyFileName today := by
  simp [getServerDataFilePath, hmode, dailyFileName]

/-- In daily mode the creation step writes today's file whenever the write
succeeds, whether or not the file exists. -/
theorem create_daily (srv : Server) (today : String) (random : Nat → Byte) (faults : Faults)
    (dir : Dir) (hmode : srv.SERVER_DATA_MODE = "daily") :
    createServerDataFileIfNeeded srv today random faults dir =
      if faults.write then dir
      else writeFileSync dir (dailyFileName today) (randomBuffer random) := by
  unfold createServerDataFileIfNeeded
  rw [getServerDataFilePath_daily srv today hmode]
  simp [hmode]

/-! ## Lemmas on configuration loading -/

theorem strictEqString_iff (v : JsValue) (s : String) :
    strictEqString v s = true ↔ v = .string s := by
  cases v <;> simp [strictEqString]

theorem isNumber_iff (v : JsValue) : isNumber v = true ↔ ∃ x, v = .number x := by
  cases v <;> simp [isNumber]

theorem toStringThrows_string (v : JsValue) (s : String) (h : strictEqString v s = true) :
    toStringThrows v = false := by
  rw [(strictEqString_iff v s).1 h]
  rfl

/-- When the conversion of the loaded mode throws, validation throws. -/
theorem validate_of_toStringThrows (config : Config)
    (h : toStringThrows config.serverDataMode = true) : validate config = none := by
  have h1 : strictEqString config.serverDataMode "daily" = false := by
    cases hs : strictEqString config.serverDataMode "daily" with
    | false => rfl
    | true => rw [toStringThrows_string _ _ hs] at h; cases h
  have h2 : strictEqString config.serverDataMode "single" = false := by
    cases hs : strictEqString config.serverDataMode "single" with
    | false => rfl
    | true => rw [toStringThrows_string _ _ hs] at h; cases h
  simp [validate, validateServerDataMode, h1, h2, h]

/-- When the conversion of the loaded mode throws, the whole configuration
is the default one. -/
theorem loadConfig_of_toStringThrows (props : List (String × JsValue)) (v : JsValue)
    (hv : props.lookup "serverDataMode" = some v) (h : toStringThrows v = true) :
    loadConfig (.parsed (.object props)) = DEFAULT_CONFIG := by
  have hload : loadConfig (.parsed (.object props)) =
      (validate ⟨(props.lookup "daysToKeep").getD (.number 7),
        (props.lookup "serverDataMode").getD (.string "daily")⟩).getD DEFAULT_CONFIG := rfl
  rw [hload, validate_of_toStringThrows _ (by simpa [hv] using h)]
  rfl

theorem validate_getD_serverDataMode (config : Config) :
    ((validate config).getD DEFAULT_CONFIG).serverDataMode =
      if strictEqString config.serverDataMode "daily" ||
          strictEqString config.serverDataMode "single"
      then config.serverDataMode else .string "daily" := by
  obtain ⟨d, m⟩ := config
  have hd : strictEqString (.string "daily") "daily" = true := by simp [strictEqString]
  unfold validate validateServerDataMode validateDaysToKeep
  cases h1 : strictEqString m "daily" <;> cases h2 : strictEqString m "single" <;>
    cases h3 : isNumber d <;> cases h4 : toStringThrows m <;>
    simp [h1, h2, h3, h4, hd, DEFAULT_CONFIG]

theorem validate_getD_daysToKeep (config : Config)
    (h : ((validate config).getD DEFAULT_CONFIG).serverDataMode = .string "daily")
    (hprint : toStringThrows config.serverDataMode = false) :
    ((validate config).getD DEFAULT_CONFIG).daysToKeep =
      if isNumber config.daysToKeep then config.daysToKeep else .number 7 := by
  obtain ⟨d, m⟩ := config
  have hd : strictEqString (.string "daily") "daily" = true := by simp [strictEqString]
  have hmode := validate_getD_serverDataMode ⟨d, m⟩
  rw [h] at hmode
  simp only at hprint
  revert hmode
  unfold validate validateServerDataMode validateDaysToKeep
  cases h1 : strictEqString m "daily" <;> cases h2 : strictEqString m "single" <;>
    cases h3 : isNumber d <;> simp [h1, h2, h3, hprint, hd, DEFAULT_CONFIG]
  all_goals
    intro hm
    rw [← hm] at h2
    simp [strictEqString] at h2

theorem validate_getD_daysToKeep_not_number (config : Config)
    (h : ((validate config).getD DEFAULT_CONFIG).serverDataMode = .string "daily")
    (hnum : isNumber config.daysToKeep = false) :
    ((validate config).getD DEFAULT_CONFIG).daysToKeep = .number 7 := by
  cases hprint : toStringThrows config.serverDataMode with
  | false => rw [validate_getD_daysToKeep config h hprint, hnum]; rfl
  | true => rw [validate_of_toStringThrows config hprint]; rfl

/-- What a daily pass leaves. In daily mode with `daysToKeep = n` other than
`-1` and no storage error, after a daily pass the directory holds today's
pool, freshly written, together with the previously stored daily pools that
the retention pass kept: at most `max 1 n + 1` daily pools, every dropped
pool sorting strictly before every kept one; with `n = 0` or `n = 1`, at
most two. -/
theorem manageServerDataFiles_daily (srv : Server) (today : String) (random : Nat → Byte)
    (dir : Dir) (hmode : srv.SERVER_DATA_MODE = "daily") (hdays : srv.DAYS_TO_KEEP ≠ -1) :
    readFile (manageServerDataFiles srv today random noFaults dir) (dailyFileName today) =
        some (randomBuffer random) ∧
      (∀ f, f ∈ storedDailyFiles (manageServerDataFiles srv today random noFaults dir) ↔
        f = dailyFileName today ∨
          (f ∈ storedDailyFiles dir ∧ f ∉ filesToDelete srv.DAYS_TO_KEEP (readdirSync dir))) ∧
      ((storedDailyFiles (manageServerDataFiles srv today random noFaults dir)).length : Int) ≤
        max 1 srv.DAYS_TO_KEEP + 1 ∧
      (srv.DAYS_TO_KEEP = 0 ∨ srv.DAYS_TO_KEEP = 1 →
        (storedDailyFiles (manageServerDataFiles srv today random noFaults dir)).length ≤ 2) ∧
      ∀ f ∈ storedDailyFiles (manageServerDataFiles srv today random noFaults dir),
        f ≠ dailyFileName today →
        ∀ d ∈ storedDailyFiles dir,
          d ∉ storedDailyFiles (manageServerDataFiles srv today random noFaults dir) →
          sortLt d f := by
  have hafter : manageServerDataFiles srv today random noFaults dir =
      writeFileSync
        (dir.filter (fun e => decide (e.1 ∉ filesToDelete srv.DAYS_TO_KEEP (readdirSync dir))))
        (dailyFileName today) (randomBuffer random) := by
    unfold manageServerDataFiles
    rw [if_pos hmode, create_daily srv today random noFaults _ hmode,
      deleteOldest_daily srv dir hmode hdays]
    simp [noFaults]
  have hmem : ∀ f, f ∈ storedDailyFiles (manageServerDataFiles srv today random noFaults dir) ↔
      f = dailyFileName today ∨
        (f ∈ storedDailyFiles dir ∧ f ∉ filesToDelete srv.DAYS_TO_KEEP (readdirSync dir)) := by
    intro f
    rw [hafter]
    unfold storedDailyFiles
    rw [readdirSync_writeFileSync,
      readdirSync_filter
        (fun f => decide (f ∉ filesToDelete srv.DAYS_TO_KEEP (readdirSync dir)))]
    simp only [List.mem_filter, List.mem_cons, decide_eq_true_eq]
    constructor
    · rintro ⟨h | ⟨⟨h1, h2⟩, _⟩, h3⟩
      · exact Or.inl h
      · exact Or.inr ⟨⟨h1, h3⟩, h2⟩
    · rintro (h | ⟨⟨h1, h3⟩, h2⟩)
      · exact ⟨Or.inl h, h ▸ isDailyFile_dailyFileName today⟩
      · by_cases hf : f = dailyFileName today
        · exact ⟨Or.inl hf, h3⟩
        · exact ⟨Or.inr ⟨⟨h1, h2⟩, hf⟩, h3⟩
  have hlen : ((storedDailyFiles
      (manageServerDataFiles srv today random noFaults dir)).length : Int) ≤
        max 1 srv.DAYS_TO_KEEP + 1 := by
    have hsurv := survivors_length srv.DAYS_TO_KEEP (readdirSync dir)
    rw [hafter]
    unfold storedDailyFiles
    rw [readdirSync_writeFileSync,
      readdirSync_filter
        (fun f => decide (f ∉ filesToDelete srv.DAYS_TO_KEEP (readdirSync dir))),
      List.filter_cons]
    have hsub : ((((readdirSync dir).filter
          (fun f => decide (f ∉ filesToDelete srv.DAYS_TO_KEEP (readdirSync dir)))).filter
          (fun f => decide (f ≠ dailyFileName today))).filter isDailyFile).length ≤
        (((readdirSync dir).filter isDailyFile).filter
          (fun f => decide (f ∉ filesToDelete srv.DAYS_TO_KEEP (readdirSync dir)))).length := by
      apply List.Sublist.length_le
      rw [List.filter_filter, List.filter_filter, List.filter_filter]
      apply List.monotone_filter_right
      intro f hf
      simp only [Bool.and_eq_true, decide_eq_true_eq] at hf ⊢
      tauto
    rw [isDailyFile_dailyFileName today, if_pos rfl, List.length_cons]
    push_cast
    omega
  refine ⟨?_, hmem, hlen, ?_, ?_⟩
  · rw [hafter]
    exact readFile_writeFileSync_self _ _ _
  · rintro (h | h) <;> rw [h] at hlen <;> simp at hlen <;> omega
  · intro f hf hne d hd hgone
    have hf' := (hmem f).1 hf
    rcases hf' with h | ⟨h1, h2⟩
    · exact absurd h hne
    · have hsel : d ∈ filesToDelete srv.DAYS_TO_KEEP (readdirSync dir) := by
        by_contra hn
        exact hgone ((hmem d).2 (Or.inr ⟨hd, hn⟩))
      exact filesToDelete_lt _ _ d f hsel h1 h2

/-- Ten stored pools, `daysToKeep = 3`, the daily pass of `2024-01-11`: the
three newest stored pools and today's remain. -/
theorem manageServerDataFiles_daily_ten :
    storedDailyFiles
        (manageServerDataFiles ⟨3, "daily"⟩ "2024-01-11" (fun _ => 0) noFaults tenPools) =
        ["server_data_2024-01-11.bin", "server_data_2024-01-10.bin",
         "server_data_2024-01-09.bin", "server_data_2024-01-08.bin"] ∧
      ((storedDailyFiles
        (manageServerDataFiles ⟨3, "daily"⟩ "2024-01-11" (fun _ => 0) noFaults tenPools)).length
          : Int) ≤ max 1 3 + 1 :=
  ⟨by decide,
    (manageServerDataFiles_daily ⟨3, "daily"⟩ "2024-01-11" (fun _ => 0) tenPools rfl
      (by decide)).2.2.1⟩

/-! ## The retention and configuration claims -/

/-- C6. Retention selection: in daily mode with `daysToKeep` other than `-1`,
the retention pass removes exactly the selected files; these are stored
daily files, none when the count is at most `max 1 daysToKeep` and
`count - max 1 daysToKeep` of them otherwise (a number fixed by the count
alone), and each sorts strictly before every stored daily file that is
kept. -/
theorem C6_retention_selection (srv : Server) (dir : Dir)
    (hmode : srv.SERVER_DATA_MODE = "daily") (hdays : srv.DAYS_TO_KEEP ≠ -1)
    (hnodup : (readdirSync dir).Nodup) :
    readdirSync (deleteOldestServerDataFiles srv noFaults dir) =
        (readdirSync dir).filter
          (fun f => decide (f ∉ filesToDelete srv.DAYS_TO_KEEP (readdirSync dir))) ∧
      (((storedDailyFiles dir).length : Int) ≤ max 1 srv.DAYS_TO_KEEP →
        filesToDelete srv.DAYS_TO_KEEP (readdirSync dir) = []) ∧
      (((storedDailyFiles dir).length : Int) > max 1 srv.DAYS_TO_KEEP →
        ((filesToDelete srv.DAYS_TO_KEEP (readdirSync dir)).length : Int) =
          ((storedDailyFiles dir).length : Int) - max 1 srv.DAYS_TO_KEEP) ∧
      (filesToDelete srv.DAYS_TO_KEEP (readdirSync dir)).Nodup ∧
      (∀ d ∈ filesToDelete srv.DAYS_TO_KEEP (readdirSync dir), d ∈ storedDailyFiles dir) ∧
      ∀ d ∈ filesToDelete srv.DAYS_TO_KEEP (readdirSync dir),
        ∀ k ∈ storedDailyFiles dir, k ∉ filesToDelete srv.DAYS_TO_KEEP (readdirSync dir) →
          sortLt d k := by
  have hlen := filesToDelete_length srv.DAYS_TO_KEEP (readdirSync dir)
  refine ⟨?_, ?_, ?_, filesToDelete_nodup _ _ hnodup, ?_, ?_⟩
  · rw [deleteOldest_daily srv dir hmode hdays]
    exact readdirSync_filter
      (fun f => decide (f ∉ filesToDelete srv.DAYS_TO_KEEP (readdirSync dir))) dir
  · intro h
    apply List.eq_nil_of_length_eq_zero
    unfold storedDailyFiles at h
    omega
  · intro h
    unfold storedDailyFiles at h ⊢
    omega
  · intro d hd
    exact filesToDelete_subset _ _ d hd
  · intro d hd k hk hnot
    exact filesToDelete_lt _ _ d k hd hk hnot

/-- The boundary scenario: of the files `2024-01-01` .. `2024-01-10` with
`daysToKeep = 3`, exactly `2024-01-01` .. `2024-01-07` are selected. -/
theorem C6_retention_selection_witness :
    filesToDelete 3 (readdirSync tenPools) =
        ["server_data_2024-01-01.bin", "server_data_2024-01-02.bin",
         "server_data_2024-01-03.bin", "server_data_2024-01-04.bin",
         "server_data_2024-01-05.bin", "server_data_2024-01-06.bin",
         "server_data_2024-01-07.bin"] ∧
      readdirSync (deleteOldestServerDataFiles ⟨3, "daily"⟩ noFaults tenPools) =
        (readdirSync tenPools).filter
          (fun f => decide (f ∉ filesToDelete 3 (readdirSync tenPools))) ∧
      (((storedDailyFiles tenPools).length : Int) ≤ max 1 3 →
        filesToDelete 3 (readdirSync tenPools) = []) ∧
      (((storedDailyFiles tenPools).length : Int) > max 1 3 →
        ((filesToDelete 3 (readdirSync tenPools)).length : Int) =
          ((storedDailyFiles tenPools).length : Int) - max 1 3) ∧
      (filesToDelete 3 (readdirSync tenPools)).Nodup ∧
      (∀ d ∈ filesToDelete 3 (readdirSync tenPools), d ∈ storedDailyFiles tenPools) ∧
      ∀ d ∈ filesToDelete 3 (readdirSync tenPools),
        ∀ k ∈ storedDailyFiles tenPools, k ∉ filesToDelete 3 (readdirSync tenPools) →
          sortLt d k :=
  ⟨by decide, C6_retention_selection ⟨3, "daily"⟩ tenPools rfl (by decide) (by decide)⟩

/-- C7, as stated, fails in daily mode: with today's pool stored, the
creation step, alone or within the daily pass, replaces its bytes. -/
theorem C7_counterexample :
    existsSync todayStored (getServerDataFilePath ⟨7, "daily"⟩ none "2024-06-01") = true ∧
      readFile todayStored "server_data_2024-06-01.bin" = some (randomBuffer (fun _ => 0)) ∧
      readFile
          (createServerDataFileIfNeeded ⟨7, "daily"⟩ "2024-06-01" (fun _ => 1) noFaults
            todayStored)
          "server_data_2024-06-01.bin" = some (randomBuffer (fun _ => 1)) ∧
      readFile
          (manageServerDataFiles ⟨7, "daily"⟩ "2024-06-01" (fun _ => 1) noFaults todayStored)
          "server_data_2024-06-01.bin" = some (randomBuffer (fun _ => 1)) ∧
      randomBuffer (fun _ => 1) ≠ randomBuffer (fun _ => 0) := by
  refine ⟨by decide, rfl, rfl, rfl, ?_⟩
  intro h
  have h0 := congrArg (fun l => l[0]?) h
  simp only [randomBuffer_head] at h0
  exact absurd h0 (by decide)

/-- C7, amended. When the current pool file exists: in single mode the
creation step, the daily pass and the startup block all leave the directory
as it was; the startup block, in either mode, never changes the bytes of a
file; in daily mode the creation step, alone or within the daily pass,
writes freshly generated bytes to today's file whenever the write succeeds. -/
theorem C7_creation_idempotence (srv : Server) (today : String) (random : Nat → Byte)
    (faults : Faults) (dir : Dir)
    (hexists : existsSync dir (getServerDataFilePath srv none today) = true) :
    (srv.SERVER_DATA_MODE = "single" →
        createServerDataFileIfNeeded srv today random faults dir = dir ∧
        manageServerDataFiles srv today random faults dir = dir ∧
        initialization srv today random faults dir = dir) ∧
      (∀ f bytes, readFile (initialization srv today random faults dir) f = some bytes →
        readFile dir f = some bytes) ∧
      (srv.SERVER_DATA_MODE = "daily" → faults.write = false →
        readFile (createServerDataFileIfNeeded srv today random faults dir)
            (getServerDataFilePath srv none today) = some (randomBuffer random) ∧
        readFile (manageServerDataFiles srv today random faults dir)
            (getServerDataFilePath srv none today) = some (randomBuffer random)) := by
  refine ⟨?_, ?_, ?_⟩
  · intro hmode
    refine ⟨?_, ?_, ?_⟩
    · simp [createServerDataFileIfNeeded, hmode, hexists]
    · simp [manageServerDataFiles, hmode]
    · simp [initialization, hmode, hexists]
  · intro f bytes h
    have hinit : initialization srv today random faults dir =
        if srv.SERVER_DATA_MODE = "daily" then deleteOldestServerDataFiles srv faults dir
        else dir := by
      simp [initialization, hexists]
    rw [hinit] at h
    split at h
    · obtain ⟨q, hq⟩ := deleteOldest_eq_filter srv faults dir
      rw [hq, readFile_filter] at h
      split at h
      · exact h
      · cases h
    · exact h
  · intro hmode hwrite
    rw [getServerDataFilePath_daily srv today hmode]
    constructor
    · rw [create_daily srv today random faults dir hmode]
      simp only [hwrite, Bool.false_eq_true, if_false]
      exact readFile_writeFileSync_self _ _ _
    · unfold manageServerDataFiles
      rw [if_pos hmode, create_daily srv today random faults _ hmode]
      simp only [hwrite, Bool.false_eq_true, if_false]
      exact readFile_writeFileSync_self _ _ _

/-- A stored single-mode pool is left alone by the creation step; a stored
daily pool is rewritten by the daily pass. -/
theorem C7_creation_idempotence_witness :
    (existsSync singleStored (getServerDataFilePath ⟨7, "single"⟩ none "2024-06-01") = true ∧
        createServerDataFileIfNeeded ⟨7, "single"⟩ "2024-06-01" (fun _ => 1) noFaults
          singleStored = singleStored) ∧
      (existsSync todayStored (getServerDataFilePath ⟨7, "daily"⟩ none "2024-06-01") = true ∧
        readFile
          (manageServerDataFiles ⟨7, "daily"⟩ "2024-06-01" (fun _ => 1) noFaults todayStored)
          (getServerDataFilePath ⟨7, "daily"⟩ none "2024-06-01") =
            some (randomBuffer (fun _ => 1))) :=
  ⟨⟨by decide,
      ((C7_creation_idempotence ⟨7, "single"⟩ "2024-06-01" (fun _ => 1) noFaults singleStored
        (by decide)).1 rfl).1⟩,
    ⟨by decide,
      ((C7_creation_idempotence ⟨7, "daily"⟩ "2024-06-01" (fun _ => 1) noFaults todayStored
        (by decide)).2.2 rfl rfl).2⟩⟩

/-- C8 at a failing input: with `daysToKeep = 1` and the pool of `2024-01-01`
stored, the daily pass of `2024-01-02` selects nothing for deletion and
leaves two daily pools, more than `max 1 1` and not today's pool alone; the
startup block run on that result, which prunes after creating, leaves
today's pool alone. -/
theorem C8_rotation_failing_input :
    filesToDelete 1 (readdirSync oneDayOld) = [] ∧
      storedDailyFiles
        (manageServerDataFiles ⟨1, "daily"⟩ "2024-01-02" (fun _ => 0) noFaults oneDayOld) =
        ["server_data_2024-01-02.bin", "server_data_2024-01-01.bin"] ∧
      ¬ (((storedDailyFiles
        (manageServerDataFiles ⟨1, "daily"⟩ "2024-01-02" (fun _ => 0) noFaults oneDayOld)).length
          : Int) ≤ max 1 1) ∧
      storedDailyFiles
        (initialization ⟨1, "daily"⟩ "2024-01-02" (fun _ => 0) noFaults
          (manageServerDataFiles ⟨1, "daily"⟩ "2024-01-02" (fun _ => 0) noFaults oneDayOld)) =
        ["server_data_2024-01-02.bin"] := by
  decide

/-- C9. Retention is a no-op outside its window: in single mode, whatever
`daysToKeep`, and in daily mode with `daysToKeep = -1`, the retention pass
leaves the directory as it was. -/
theorem C9_retention_noop (srv : Server) (faults : Faults) (dir : Dir)
    (h : srv.SERVER_DATA_MODE = "single" ∨
      (srv.SERVER_DATA_MODE = "daily" ∧ srv.DAYS_TO_KEEP = -1)) :
    deleteOldestServerDataFiles srv faults dir = dir := by
  unfold deleteOldestServerDataFiles
  rcases h with h | ⟨h1, h2⟩
  · simp [h]
  · simp [h1, h2]

/-- Ten stored files: untouched in single mode with `daysToKeep = 3`, and in
daily mode with `daysToKeep = -1`. -/
theorem C9_retention_noop_witness :
    deleteOldestServerDataFiles ⟨3, "single"⟩ noFaults tenPools = tenPools ∧
      deleteOldestServerDataFiles ⟨-1, "daily"⟩ noFaults tenPools = tenPools :=
  ⟨C9_retention_noop ⟨3, "single"⟩ noFaults tenPools (Or.inl rfl),
    C9_retention_noop ⟨-1, "daily"⟩ noFaults tenPools (Or.inr ⟨rfl, rfl⟩)⟩

/-- C10, as stated, fails: with a loaded `serverDataMode` that is an object
with an own `toString` property and a loaded `daysToKeep` of `30`, the
warning throws and the defaults are taken, so the effective mode is
`"daily"` while the effective `daysToKeep` is `7`, not the loaded number. -/
theorem C10_counterexample :
    List.lookup "daysToKeep"
        [("serverDataMode", JsValue.object [("toString", .null)]), ("daysToKeep", .number 30)] =
        some (.number 30) ∧
      (loadConfig (.parsed (.object
        [("serverDataMode", .object [("toString", .null)]), ("daysToKeep", .number 30)]))
        ).serverDataMode = .string "daily" ∧
      (loadConfig (.parsed (.object
        [("serverDataMode", .object [("toString", .null)]), ("daysToKeep", .number 30)]))
        ).daysToKeep = .number 7 ∧
      (loadConfig (.parsed (.object
        [("serverDataMode", .object [("toString", .null)]), ("daysToKeep", .number 30)]))
        ).daysToKeep ≠ .number 30 := by
  refine ⟨rfl, rfl, rfl, ?_⟩
  intro h
  have h7 : (7 : ℚ) = 30 := JsValue.number.inj h
  norm_num at h7

/-- C10, amended. Configuration fallback: for a parsed object, the effective
mode is the loaded one when it is `"daily"` or `"single"` and `"daily"`
otherwise; and when the effective mode is `"daily"`, the effective
`daysToKeep` is `7` when the loaded value is not a number, and is the
loaded value when that is a number and the loaded mode, if any, converts
to a string without throwing. -/
theorem C10_config_fallback (props : List (String × JsValue)) :
    (∀ v, props.lookup "serverDataMode" = some v →
        v = .string "daily" ∨ v = .string "single" →
        (loadConfig (.parsed (.object props))).serverDataMode = v) ∧
      ((∀ v, props.lookup "serverDataMode" = some v →
          v ≠ .string "daily" ∧ v ≠ .string "single") →
        (loadConfig (.parsed (.object props))).serverDataMode = .string "daily") ∧
      ((loadConfig (.parsed (.object props))).serverDataMode = .string "daily" →
        ((∀ v, props.lookup "serverDataMode" = some v → toStringThrows v = false) →
          ∀ x, props.lookup "daysToKeep" = some (.number x) →
            (loadConfig (.parsed (.object props))).daysToKeep = .number x) ∧
        ((∀ x, props.lookup "daysToKeep" ≠ some (.number x)) →
          (loadConfig (.parsed (.object props))).daysToKeep = .number 7)) ∧
      loadConfig (.parsed (.object [("serverDataMode", .string "weekly"),
          ("daysToKeep", .string "3")])) = ⟨.number 7, .string "daily"⟩ ∧
      loadConfig (.parsed (.object [("serverDataMode", .number 1), ("daysToKeep", .number 30)]))
        = ⟨.number 30, .string "daily"⟩ := by
  have hload : loadConfig (.parsed (.object props)) =
      (validate ⟨(props.lookup "daysToKeep").getD (.number 7),
        (props.lookup "serverDataMode").getD (.string "daily")⟩).getD DEFAULT_CONFIG := rfl
  have hd : strictEqString (.string "daily") "daily" = true := by simp [strictEqString]
  refine ⟨?_, ?_, ?_, rfl, rfl⟩
  · intro v hv hor
    rw [hload, validate_getD_serverDataMode]
    simp only [hv, Option.getD_some]
    rcases hor with e | e <;> simp [e, strictEqString]
  · intro hbad
    rw [hload, validate_getD_serverDataMode]
    cases hm : props.lookup "serverDataMode" with
    | none => simp [hd]
    | some v =>
      obtain ⟨n1, n2⟩ := hbad v hm
      have e1 : strictEqString v "daily" = false := by
        simpa [← strictEqString_iff] using n1
      have e2 : strictEqString v "single" = false := by
        simpa [← strictEqString_iff] using n2
      simp [e1, e2]
  · intro hmode
    rw [hload] at hmode ⊢
    constructor
    · intro hprint x hx
      have hp : toStringThrows ((props.lookup "serverDataMode").getD (.string "daily")) =
          false := by
        cases hm : props.lookup "serverDataMode" with
        | none => rfl
        | some v => exact hprint v hm
      rw [validate_getD_daysToKeep _ hmode hp]
      simp [hx, isNumber]
    · intro hnot
      cases hk : props.lookup "daysToKeep" with
      | none =>
        rw [hk] at hmode
        cases hp : toStringThrows ((props.lookup "serverDataMode").getD (.string "daily")) with
        | false =>
          rw [validate_getD_daysToKeep _ hmode hp]
          rfl
        | true =>
          rw [validate_of_toStringThrows _ hp]
          rfl
      | some v =>
        rw [hk] at hmode
        apply validate_getD_daysToKeep_not_number _ hmode
        cases hv : isNumber v with
        | false => simpa using hv
        | true =>
          obtain ⟨x, rfl⟩ := (isNumber_iff v).1 hv
          exact absurd hk (hnot x)

/-! ## Lemmas on paths -/

theorem splitOnSlash_of_not_mem (cs : List Char) (h : '/' ∉ cs) : splitOnSlash cs = [cs] := by
  induction cs with
  | nil => rfl
  | cons c rest ih =>
    have hc : c ≠ '/' := fun e => h (e ▸ List.mem_cons_self _ _)
    have hrest : '/' ∉ rest := fun e => h (List.mem_cons_of_mem _ e)
    simp [splitOnSlash, hc, ih hrest]

theorem segments_of_no_slash (name : String) (h : '/' ∉ name.data) : segments name = [name] := by
  simp [segments, splitOnSlash_of_not_mem name.data h]

/-- A name without separator that is not empty, `.` or `..` is joined as one
more segment. -/
theorem pathJoin_of_no_slash (dir : List String) (name : String) (h : '/' ∉ name.data)
    (h0 : name ≠ "") (h1 : name ≠ ".") (h2 : name ≠ "..") : pathJoin dir name = dir ++ [name] := by
  simp [pathJoin, segments_of_no_slash name h, normalizeStep, h0, h1, h2]

theorem dailyFileName_data (date : String) :
    (dailyFileName date).data = "server_data_".data ++ date.data ++ ".bin".data := by
  simp [dailyFileName, String.data_append]

theorem dailyFileName_injective (d d' : String) (h : dailyFileName d = dailyFileName d') :
    d = d' := by
  have hdata := congrArg String.data h
  rw [dailyFileName_data, dailyFileName_data] at hdata
  have h1 := List.append_cancel_right hdata
  exact String.ext (List.append_cancel_left h1)

theorem dailyFileName_no_slash (date : String) (h : '/' ∉ date.data) :
    '/' ∉ (dailyFileName date).data := by
  rw [dailyFileName_data]
  intro hmem
  rcases List.mem_append.1 hmem with hm | hm
  · rcases List.mem_append.1 hm with hp | hd
    · exact absurd hp (by decide)
    · exact h hd
  · exact absurd hm (by decide)

theorem dailyFileName_ne (date : String) (name : String) (hname : name.data.head? ≠ some 's') :
    dailyFileName date ≠ name := by
  intro h
  apply hname
  rw [← h, dailyFileName_data]
  rfl

theorem pathJoin_dailyFileName (dir : List String) (date : String) (h : '/' ∉ date.data) :
    pathJoin dir (dailyFileName date) = dir ++ [dailyFileName date] :=
  pathJoin_of_no_slash dir _ (dailyFileName_no_slash date h)
    (dailyFileName_ne date "" (by decide)) (dailyFileName_ne date "." (by decide))
    (dailyFileName_ne date ".." (by decide))

theorem getServerDataFilePath_date (srv : Server) (today d : String)
    (hmode : srv.SERVER_DATA_MODE = "daily") (hd : d ≠ "") :
    getServerDataFilePath srv (some d) today = dailyFileName d := by
  simp [getServerDataFilePath, hmode, hd, dailyFileName]

theorem resolvedFilePath_single (dir : List String) (srv : Server) (date : Option String)
    (today : String) (hmode : srv.SERVER_DATA_MODE = "single") :
    resolvedFilePath dir srv date today = dir ++ [SINGLE_DATA_FILENAME] := by
  have hname : getServerDataFilePath srv date today = SINGLE_DATA_FILENAME := by
    simp [getServerDataFilePath, hmode]
  rw [resolvedFilePath, hname]
  exact pathJoin_of_no_slash dir _ (by decide) (by decide) (by decide) (by decide)

theorem resolvedFilePath_daily (dir : List String) (srv : Server) (today d : String)
    (hmode : srv.SERVER_DATA_MODE = "daily") (hd : d ≠ "") (h : '/' ∉ d.data) :
    resolvedFilePath dir srv (some d) today = dir ++ [dailyFileName d] := by
  rw [resolvedFilePath, getServerDataFilePath_date srv today d hmode hd,
    pathJoin_dailyFileName dir d h]

theorem basename_append_singleton (dir : List String) (name : String) :
    basename (dir ++ [name]) = name := by
  simp [basename]

/-! ## The pool resolution claim -/

/-- C11, as stated, fails in daily mode: the distinct non-empty date
parameters `2024-06-01` and `x/../server_data_2024-06-01` resolve to the
same file, and the second does not resolve to a file named after it. -/
theorem C11_counterexample :
    ("x/../server_data_2024-06-01" : String) ≠ "" ∧
      ("x/../server_data_2024-06-01" : String) ≠ "2024-06-01" ∧
      resolvedFilePath ["app", "server_data"] ⟨7, "daily"⟩
          (some "x/../server_data_2024-06-01") "2024-06-02" =
        resolvedFilePath ["app", "server_data"] ⟨7, "daily"⟩ (some "2024-06-01") "2024-06-02" ∧
      downloadTarget ["app", "server_data"] ⟨7, "daily"⟩ "x/../server_data_2024-06-01"
          "2024-06-02" =
        (["app", "server_data", "server_data_2024-06-01.bin"], "server_data_2024-06-01.bin") ∧
      (downloadTarget ["app", "server_data"] ⟨7, "daily"⟩ "x/../server_data_2024-06-01"
          "2024-06-02").2 ≠ dailyFileName "x/../server_data_2024-06-01" := by
  decide

/-- C11, amended. In single mode every date parameter resolves to the fixed
file `server_data.bin` of the data directory, in `getServerDataFilePath` and
in the download route, so any two requests resolve alike. In daily mode a
non-empty date parameter `d` without `/` resolves to the file
`server_data_<d>.bin` of the data directory, and two distinct such dates
resolve to distinct files. -/
theorem C11_pool_resolution (SERVER_DATA_DIR : List String) (srv : Server) (today : String) :
    (srv.SERVER_DATA_MODE = "single" →
        ∀ (date : Option String) (requested requested' : String),
          resolvedFilePath SERVER_DATA_DIR srv date today =
            SERVER_DATA_DIR ++ ["server_data.bin"] ∧
          downloadTarget SERVER_DATA_DIR srv requested today =
            (SERVER_DATA_DIR ++ ["server_data.bin"], "server_data.bin") ∧
          downloadTarget SERVER_DATA_DIR srv requested today =
            downloadTarget SERVER_DATA_DIR srv requested' today) ∧
      (srv.SERVER_DATA_MODE = "daily" →
        ∀ d : String, d ≠ "" → '/' ∉ d.data →
          resolvedFilePath SERVER_DATA_DIR srv (some d) today =
            SERVER_DATA_DIR ++ [dailyFileName d] ∧
          downloadTarget SERVER_DATA_DIR srv d today =
            (SERVER_DATA_DIR ++ [dailyFileName d], dailyFileName d) ∧
          ∀ d' : String, d' ≠ "" → '/' ∉ d'.data → d ≠ d' →
            resolvedFilePath SERVER_DATA_DIR srv (some d) today ≠
              resolvedFilePath SERVER_DATA_DIR srv (some d') today ∧
            (downloadTarget SERVER_DATA_DIR srv d today).1 ≠
              (downloadTarget SERVER_DATA_DIR srv d' today).1) ∧
      downloadTarget ["app", "server_data"] ⟨7, "single"⟩ "2024-06-01" "2024-06-02" =
        (["app", "server_data", "server_data.bin"], "server_data.bin") ∧
      downloadTarget ["app", "server_data"] ⟨7, "daily"⟩ "2024-06-01" "2024-06-02" =
        (["app", "server_data", "server_data_2024-06-01.bin"], "server_data_2024-06-01.bin") := by
  refine ⟨?_, ?_, by decide, by decide⟩
  · intro hmode date requested requested'
    have hpath := resolvedFilePath_single SERVER_DATA_DIR srv none today hmode
    have htarget : ∀ r, downloadTarget SERVER_DATA_DIR srv r today =
        (SERVER_DATA_DIR ++ ["server_data.bin"], "server_data.bin") := by
      intro r
      simp only [downloadTarget, hmode, if_true, hpath]
      rfl
    exact ⟨resolvedFilePath_single SERVER_DATA_DIR srv date today hmode, htarget requested,
      by rw [htarget requested, htarget requested']⟩
  · intro hmode d hd hslash
    have hsingle : ¬ srv.SERVER_DATA_MODE = "single" := by rw [hmode]; decide
    have htarget : ∀ r : String, r ≠ "" → '/' ∉ r.data →
        downloadTarget SERVER_DATA_DIR srv r today =
          (SERVER_DATA_DIR ++ [dailyFileName r], dailyFileName r) := by
      intro r hr hrs
      simp only [downloadTarget, hsingle, if_false,
        resolvedFilePath_daily SERVER_DATA_DIR srv today r hmode hr hrs,
        basename_append_singleton]
    refine ⟨resolvedFilePath_daily SERVER_DATA_DIR srv today d hmode hd hslash,
      htarget d hd hslash, ?_⟩
    intro d' hd' hslash' hne
    have hpaths : SERVER_DATA_DIR ++ [dailyFileName d] ≠ SERVER_DATA_DIR ++ [dailyFileName d'] := by
      intro h
      have := List.append_cancel_left h
      simp only [List.cons.injEq, and_true] at this
      exact hne (dailyFileName_injective d d' this)
    rw [resolvedFilePath_daily SERVER_DATA_DIR srv today d hmode hd hslash,
      resolvedFilePath_daily SERVER_DATA_DIR srv today d' hmode hd' hslash',
      htarget d hd hslash, htarget d' hd' hslash']
    exact ⟨hpaths, hpaths⟩

/-! ## Lemmas on what the retention pass keeps -/

theorem exists_greatest (files : List String) (h : files ≠ []) :
    ∃ g ∈ files, ∀ f ∈ files, sortLe f g := by
  induction files with
  | nil => exact absurd rfl h
  | cons x xs ih =>
    by_cases hxs : xs = []
    · subst hxs
      refine ⟨x, List.mem_cons_self _ _, ?_⟩
      intro f hf
      rw [List.mem_singleton.1 hf]
      exact (sortLe_total x x).elim id id
    · obtain ⟨g, hg, hmax⟩ := ih hxs
      by_cases hgx : sortLe g x
      · refine ⟨x, List.mem_cons_self _ _, ?_⟩
        intro f hf
        rcases List.mem_cons.1 hf with e | e
        · rw [e]
          exact (sortLe_total x x).elim id id
        · exact sortLe_trans f g x (hmax f e) hgx
      · refine ⟨g, List.mem_cons_of_mem _ hg, ?_⟩
        intro f hf
        rcases List.mem_cons.1 hf with e | e
        · rw [e]
          exact (sortLe_total x g).resolve_right hgx
        · exact hmax f e

/-- Some stored daily file is never selected. -/
theorem exists_not_selected (n : Int) (entries : List String) (hnodup : entries.Nodup)
    (hne : entries.filter isDailyFile ≠ []) :
    ∃ k ∈ entries.filter isDailyFile, k ∉ filesToDelete n entries := by
  by_contra hall
  have hsub : entries.filter isDailyFile ⊆ filesToDelete n entries := by
    intro k hk
    by_contra hk'
    exact hall ⟨k, hk, hk'⟩
  have hle := ((hnodup.filter _).subperm hsub).length_le
  have hlen := filesToDelete_length n entries
  have hpos : 0 < (entries.filter isDailyFile).length := List.length_pos.2 hne
  have : (1 : Int) ≤ max 1 n := le_max_left 1 n
  omega

/-- The greatest stored daily file is never selected. -/
theorem greatest_not_selected (n : Int) (entries : List String) (g : String)
    (hnodup : entries.Nodup) (hg : g ∈ entries.filter isDailyFile)
    (hmax : ∀ f ∈ entries.filter isDailyFile, sortLe f g) : g ∉ filesToDelete n entries := by
  intro hsel
  obtain ⟨k, hk, hnot⟩ := exists_not_selected n entries hnodup (List.ne_nil_of_mem hg)
  exact filesToDelete_lt n entries g k hsel hk hnot (hmax k hk)

/-- The retention pass is a filter by name that lets every file through
that was not selected. -/
theorem deleteOldest_filter_keeps (srv : Server) (faults : Faults) (dir : Dir) :
    ∃ q : String → Bool,
      deleteOldestServerDataFiles srv faults dir = dir.filter (fun e => q e.1) ∧
      ∀ f, f ∉ filesToDelete srv.DAYS_TO_KEEP (readdirSync dir) → q f = true := by
  unfold deleteOldestServerDataFiles
  split
  · exact ⟨fun _ => true, by simp, fun _ _ => rfl⟩
  · split
    · exact ⟨fun _ => true, by simp, fun _ _ => rfl⟩
    · split
      · exact ⟨fun _ => true, by simp, fun _ _ => rfl⟩
      · rw [deletionLoop_eq]
        refine ⟨fun f => decide (¬ (f ∈ filesToDelete srv.DAYS_TO_KEEP (readdirSync dir) ∧
          faults.unlink f = false)), rfl, ?_⟩
        intro f hf
        simp [hf]

/-! ## The invariant of the retention pass -/

/-- C13. Retention never deletes the newest pool: whatever `daysToKeep`, the
mode and the storage errors, a non-empty set of stored daily files has a
greatest file, the pass never selects it, it is still stored afterwards
with its bytes, so a pool survives; in particular today's pool does when no
stored file sorts after it. -/
theorem C13_newest_survives (srv : Server) (faults : Faults) (dir : Dir)
    (hnodup : (readdirSync dir).Nodup) (hne : storedDailyFiles dir ≠ []) :
    (∃ g ∈ storedDailyFiles dir, ∀ f ∈ storedDailyFiles dir, sortLe f g) ∧
      (∀ g ∈ storedDailyFiles dir, (∀ f ∈ storedDailyFiles dir, sortLe f g) →
        g ∉ filesToDelete srv.DAYS_TO_KEEP (readdirSync dir) ∧
        g ∈ storedDailyFiles (deleteOldestServerDataFiles srv faults dir) ∧
        readFile (deleteOldestServerDataFiles srv faults dir) g = readFile dir g) ∧
      storedDailyFiles (deleteOldestServerDataFiles srv faults dir) ≠ [] ∧
      ∀ today, dailyFileName today ∈ storedDailyFiles dir →
        (∀ f ∈ storedDailyFiles dir, sortLe f (dailyFileName today)) →
        dailyFileName today ∈ storedDailyFiles (deleteOldestServerDataFiles srv faults dir) := by
  have hkeep : ∀ g ∈ storedDailyFiles dir, (∀ f ∈ storedDailyFiles dir, sortLe f g) →
      g ∉ filesToDelete srv.DAYS_TO_KEEP (readdirSync dir) ∧
      g ∈ storedDailyFiles (deleteOldestServerDataFiles srv faults dir) ∧
      readFile (deleteOldestServerDataFiles srv faults dir) g = readFile dir g := by
    intro g hg hmax
    have hsel := greatest_not_selected srv.DAYS_TO_KEEP (readdirSync dir) g hnodup hg hmax
    obtain ⟨q, hq, hqkeep⟩ := deleteOldest_filter_keeps srv faults dir
    refine ⟨hsel, ?_, ?_⟩
    · rw [hq]
      unfold storedDailyFiles at hg ⊢
      rw [readdirSync_filter q dir]
      rw [List.mem_filter] at hg ⊢
      exact ⟨List.mem_filter.2 ⟨hg.1, hqkeep g hsel⟩, hg.2⟩
    · rw [hq, readFile_filter q dir g, if_pos (hqkeep g hsel)]
  obtain ⟨g, hg, hmax⟩ := exists_greatest (storedDailyFiles dir) hne
  refine ⟨⟨g, hg, hmax⟩, hkeep, ?_, ?_⟩
  · exact List.ne_nil_of_mem (hkeep g hg hmax).2.1
  · intro today ht hmaxt
    exact (hkeep (dailyFileName today) ht hmaxt).2.1

/-- Ten stored pools and `daysToKeep = 3`: the pool of `2024-01-10`, the
greatest, is not selected and is still stored after the pass. -/
theorem C13_newest_survives_witness :
    (readdirSync tenPools).Nodup ∧ storedDailyFiles tenPools ≠ [] ∧
      "server_data_2024-01-10.bin" ∉ filesToDelete 3 (readdirSync tenPools) ∧
      "server_data_2024-01-10.bin" ∈
        storedDailyFiles (deleteOldestServerDataFiles ⟨3, "daily"⟩ noFaults tenPools) :=
  ⟨by decide, by decide,
    ((C13_newest_survives ⟨3, "daily"⟩ noFaults tenPools (by decide) (by decide)).2.1
      "server_data_2024-01-10.bin" (by decide) (by decide)).1,
    ((C13_newest_survives ⟨3, "daily"⟩ noFaults tenPools (by decide) (by decide)).2.1
      "server_data_2024-01-10.bin" (by decide) (by decide)).2.1⟩

/-! ## Lemmas on dated file names -/

theorem charUnits_digitChar (k : Nat) : charUnits (digitChar k) = [48 + k % 10] := by
  have hk : k % 10 < 10 := Nat.mod_lt _ (by decide)
  unfold digitChar
  generalize k % 10 = j at hk
  interval_cases j <;> rfl

theorem utf16_dateFile (a : CalendarDate) :
    utf16 (dateFile a) =
      [115, 101, 114, 118, 101, 114, 95, 100, 97, 116, 97, 95,
        48 + a.year / 1000 % 10, 48 + a.year / 100 % 10, 48 + a.year / 10 % 10,
        48 + a.year % 10, 45, 48 + a.month / 10 % 10, 48 + a.month % 10, 45,
        48 + a.day / 10 % 10, 48 + a.day % 10, 46, 98, 105, 110] := by
  have h1 : utf16 "server_data_" = [115, 101, 114, 118, 101, 114, 95, 100, 97, 116, 97, 95] := by
    decide
  have h2 : utf16 ".bin" = [46, 98, 105, 110] := by decide
  have h3 : charUnits '-' = [45] := by decide
  rw [dateFile, dailyFileName, utf16_append, utf16_append, h1, h2]
  simp [utf16, isoDate, unitsOf, charUnits_digitChar, h3]

theorem four_digits (y : Nat) (h : y ≤ 9999) :
    ∃ d3 d2 d1 d0, d3 < 10 ∧ d2 < 10 ∧ d1 < 10 ∧ d0 < 10 ∧
      y / 1000 % 10 = d3 ∧ y / 100 % 10 = d2 ∧ y / 10 % 10 = d1 ∧ y % 10 = d0 ∧
      y = 1000 * d3 + 100 * d2 + 10 * d1 + d0 := by
  refine ⟨y / 1000 % 10, y / 100 % 10, y / 10 % 10, y % 10, Nat.mod_lt _ (by decide),
    Nat.mod_lt _ (by decide), Nat.mod_lt _ (by decide), Nat.mod_lt _ (by decide),
    rfl, rfl, rfl, rfl, ?_⟩
  have e1 : y / 100 / 10 = y / 1000 := Nat.div_div_eq_div_mul _ _ _
  have e2 : y / 10 / 10 = y / 100 := Nat.div_div_eq_div_mul _ _ _
  omega

theorem two_digits (m : Nat) (h : m ≤ 99) :
    ∃ d1 d0, d1 < 10 ∧ d0 < 10 ∧ m / 10 % 10 = d1 ∧ m % 10 = d0 ∧ m = 10 * d1 + d0 := by
  refine ⟨m / 10 % 10, m % 10, Nat.mod_lt _ (by decide), Nat.mod_lt _ (by decide), rfl, rfl, ?_⟩
  omega

theorem sortLe_dateFile (a b : CalendarDate) (ha : isCalendarDate a) (hb : isCalendarDate b) :
    sortLe (dateFile a) (dateFile b) ↔ chronLe a b := by
  unfold sortLe chronLe
  unfold isCalendarDate at ha hb
  rw [utf16_dateFile, utf16_dateFile]
  simp only [unitsLe, Bool.or_eq_true, Bool.and_eq_true, decide_eq_true_eq, Nat.lt_irrefl,
    true_and, false_or, and_true, Nat.add_lt_add_iff_left, Nat.add_left_cancel_iff]
  obtain ⟨p3, p2, p1, p0, _, _, _, _, hp3, hp2, hp1, hp0, hp⟩ := four_digits a.year ha.1
  obtain ⟨q3, q2, q1, q0, _, _, _, _, hq3, hq2, hq1, hq0, hq⟩ := four_digits b.year hb.1
  obtain ⟨r1, r0, _, _, hr1, hr0, hr⟩ := two_digits a.month (by omega)
  obtain ⟨s1, s0, _, _, hs1, hs0, hs⟩ := two_digits b.month (by omega)
  obtain ⟨t1, t0, _, _, ht1, ht0, ht⟩ := two_digits a.day (by omega)
  obtain ⟨u1, u0, _, _, hu1, hu0, hu⟩ := two_digits b.day (by omega)
  rw [hp3, hp2, hp1, hp0, hq3, hq2, hq1, hq0, hr1, hr0, hs1, hs0, ht1, ht0, hu1, hu0]
  clear hp3 hp2 hp1 hp0 hq3 hq2 hq1 hq0 hr1 hr0 hs1 hs0 ht1 ht0 hu1 hu0
  omega

theorem sortLt_dateFile (a b : CalendarDate) (ha : isCalendarDate a) (hb : isCalendarDate b) :
    sortLt (dateFile a) (dateFile b) ↔ chronLt a b := by
  unfold sortLt
  rw [sortLe_dateFile b a hb ha]
  unfold chronLe chronLt
  omega

/-! ## The sort order claim -/

/-- C12. Sort order is chronological: for two calendar dates in `YYYY-MM-DD`
form, the files `server_data_<date>.bin` compare in the order of
`files.sort()` exactly as the dates compare chronologically; hence a sorted
list of such files runs from oldest to newest, and every file the retention
pass selects is of an earlier date than every file it keeps. -/
theorem C12_sort_chronological (a b : CalendarDate)
    (ha : isCalendarDate a) (hb : isCalendarDate b) :
    (sortLt (dateFile a) (dateFile b) ↔ chronLt a b) ∧
      (sortLe (dateFile a) (dateFile b) ↔ chronLe a b) ∧
      ∀ dates : List CalendarDate, (∀ x ∈ dates, isCalendarDate x) →
        sort (dates.map dateFile) = (dates.insertionSort chronLe).map dateFile ∧
        ∀ (n : Int), ∀ x ∈ dates, ∀ y ∈ dates,
          dateFile x ∈ filesToDelete n (dates.map dateFile) →
          dateFile y ∉ filesToDelete n (dates.map dateFile) → chronLt x y := by
  refine ⟨sortLt_dateFile a b ha hb, sortLe_dateFile a b ha hb, ?_⟩
  intro dates hdates
  constructor
  · have h := List.map_insertionSort chronLe sortLe dateFile dates
      (fun x hx y hy => (sortLe_dateFile x y (hdates x hx) (hdates y hy)).symm)
    exact h.symm
  · intro n x hx y hy hsel hkept
    have hy' : dateFile y ∈ (dates.map dateFile).filter isDailyFile :=
      List.mem_filter.2 ⟨List.mem_map.2 ⟨y, hy, rfl⟩, isDailyFile_dailyFileName (isoDate y)⟩
    exact (sortLt_dateFile x y (hdates x hx) (hdates y hy)).1
      (filesToDelete_lt n (dates.map dateFile) (dateFile x) (dateFile y) hsel hy' hkept)

/-- The last day of 2023 and the first of 2024: the files compare as the
dates do. -/
theorem C12_sort_chronological_witness :
    isCalendarDate ⟨2023, 12, 31⟩ ∧ isCalendarDate ⟨2024, 1, 1⟩ ∧
      dateFile ⟨2023, 12, 31⟩ = "server_data_2023-12-31.bin" ∧
      dateFile ⟨2024, 1, 1⟩ = "server_data_2024-01-01.bin" ∧
      chronLt ⟨2023, 12, 31⟩ ⟨2024, 1, 1⟩ ∧
      (sortLt (dateFile ⟨2023, 12, 31⟩) (dateFile ⟨2024, 1, 1⟩) ↔
        chronLt ⟨2023, 12, 31⟩ ⟨2024, 1, 1⟩) ∧
      sort [dateFile ⟨2024, 1, 1⟩, dateFile ⟨2023, 12, 31⟩] =
        [dateFile ⟨2023, 12, 31⟩, dateFile ⟨2024, 1, 1⟩] :=
  ⟨by decide, by decide, by decide, by decide, by decide,
    (C12_sort_chronological ⟨2023, 12, 31⟩ ⟨2024, 1, 1⟩ (by decide) (by decide)).1,
    by decide⟩

end ByteVault
